import Mathlib
/-- Character list of a string literal, used to write JavaScript string
values in the model. -/
def toCl (s : String) : List Char := s.toList

/-- Model of a JavaScript JSON value as produced by JSON.parse: null,
booleans, (integer) numbers, strings, arrays and objects.  Floating point
numbers are outside the model. -/
inductive JsonVal where
  | jnull : JsonVal
  | jbool : Bool → JsonVal
  | jnum : Int → JsonVal
  | jstr : List Char → JsonVal
  | jarr : List JsonVal → JsonVal
  | jobj : List (List Char × JsonVal) → JsonVal

/-- Packed argument for structurally nested recursion over JsonVal. -/
inductive JPack where
  | pv (v : JsonVal)
  | pa (xs : List JsonVal)
  | po (fs : List (List Char × JsonVal))

/-- Digit character for a digit value below ten. -/
def digitChar (d : Nat) : Char :=
  if d = 0 then '0' else if d = 1 then '1' else if d = 2 then '2'
  else if d = 3 then '3' else if d = 4 then '4' else if d = 5 then '5'
  else if d = 6 then '6' else if d = 7 then '7' else if d = 8 then '8'
  else '9'

/-- Digit value of a digit character, none for other characters. -/
def parseDigit (c : Char) : Option Nat :=
  if c = '0' then some 0 else if c = '1' then some 1 else if c = '2' then some 2
  else if c = '3' then some 3 else if c = '4' then some 4 else if c = '5' then some 5
  else if c = '6' then some 6 else if c = '7' then some 7 else if c = '8' then some 8
  else if c = '9' then some 9 else none

/-- Decimal digits of a natural number, most significant first; the first
argument is recursion fuel (any value above the number works). -/
def natDigitsAux : Nat → Nat → List Char
  | 0, _ => []
  | Nat.succ fuel, n =>
    if n < 10 then [digitChar n]
    else natDigitsAux fuel (n / 10) ++ [digitChar (n % 10)]

/-- Decimal digits of a natural number, most significant first. -/
def natDigits (n : Nat) : List Char := natDigitsAux (n + 1) n

/-- JSON string-body escaping used by JSON.stringify: quote and backslash
are escaped with a backslash, other characters kept. -/
def escJ : List Char → List Char
  | [] => []
  | c :: cs =>
    if c = '"' then '\\' :: '"' :: escJ cs
    else if c = '\\' then '\\' :: '\\' :: escJ cs
    else c :: escJ cs

/-- Model of JSON.stringify over packed JSON values (value, array tail,
object tail). -/
def strP : JPack → List Char
  | JPack.pv JsonVal.jnull => toCl "null"
  | JPack.pv (JsonVal.jbool true) => toCl "true"
  | JPack.pv (JsonVal.jbool false) => toCl "false"
  | JPack.pv (JsonVal.jnum (Int.ofNat n)) => natDigits n
  | JPack.pv (JsonVal.jnum (Int.negSucc m)) => '-' :: natDigits (m + 1)
  | JPack.pv (JsonVal.jstr s) => '"' :: (escJ s ++ ['"'])
  | JPack.pv (JsonVal.jarr xs) => '[' :: (strP (JPack.pa xs) ++ [']'])
  | JPack.pv (JsonVal.jobj fs) => '\x7b' :: (strP (JPack.po fs) ++ ['\x7d'])
  | JPack.pa [] => []
  | JPack.pa [x] => strP (JPack.pv x)
  | JPack.pa (x :: y :: tl) => strP (JPack.pv x) ++ ',' :: strP (JPack.pa (y :: tl))
  | JPack.po [] => []
  | JPack.po [(k, v)] => '"' :: (escJ k ++ '"' :: ':' :: strP (JPack.pv v))
  | JPack.po ((k, v) :: f :: tl) =>
    ('"' :: (escJ k ++ '"' :: ':' :: strP (JPack.pv v))) ++ ',' :: strP (JPack.po (f :: tl))
  termination_by p => sizeOf p
  decreasing_by all_goals simp <;> omega

/-- Model of JSON.stringify on a JSON value. -/
def stringifyJson (v : JsonVal) : List Char := strP (JPack.pv v)

/-- Nesting measure of a packed JSON value, bounding the recursion depth the
parser needs; atoms count one, structure nodes count their children. -/
def jmP : JPack → Nat
  | JPack.pv JsonVal.jnull => 1
  | JPack.pv (JsonVal.jbool _) => 1
  | JPack.pv (JsonVal.jnum _) => 1
  | JPack.pv (JsonVal.jstr _) => 1
  | JPack.pv (JsonVal.jarr xs) => 1 + jmP (JPack.pa xs)
  | JPack.pv (JsonVal.jobj fs) => 1 + jmP (JPack.po fs)
  | JPack.pa [] => 0
  | JPack.pa (x :: xs) => 1 + jmP (JPack.pv x) + jmP (JPack.pa xs)
  | JPack.po [] => 0
  | JPack.po ((_, v) :: fs) => 1 + jmP (JPack.pv v) + jmP (JPack.po fs)
  termination_by p => sizeOf p
  decreasing_by all_goals simp <;> omega

/-- Nesting measure of a JSON value. -/
def jm (v : JsonVal) : Nat := jmP (JPack.pv v)

/-- Parser of a JSON string body after the opening quote: stops at an
unescaped quote, unescapes backslash pairs; the flag records that the
previous character was an unconsumed backslash. -/
def parseStrA : Bool → List Char → Option (List Char × List Char)
  | _, [] => none
  | true, e :: cs =>
    match parseStrA false cs with
    | some (s, r) => some (e :: s, r)
    | none => none
  | false, c :: cs =>
    if c = '"' then some ([], cs)
    else if c = '\\' then parseStrA true cs
    else
      match parseStrA false cs with
      | some (s, r) => some (c :: s, r)
      | none => none

/-- Parser of a JSON string body after the opening quote. -/
def parseStr : List Char → Option (List Char × List Char) := parseStrA false

/-- Consume a maximal run of digit characters, accumulating their value. -/
def grabDigits : Nat → List Char → Nat × List Char
  | acc, [] => (acc, [])
  | acc, c :: cs =>
    match parseDigit c with
    | some d => grabDigits (acc * 10 + d) cs
    | none => (acc, c :: cs)

/-- Parser mode: a single value, array elements up to the closing bracket,
or object fields up to the closing brace. -/
inductive PMode where
  | mval : PMode
  | melems : PMode
  | mfields : PMode

/-- Parser result for each mode. -/
inductive PRes where
  | rv (v : JsonVal)
  | ra (xs : List JsonVal)
  | ro (fs : List (List Char × JsonVal))

/-- Expect the pattern as a prefix, returning the remainder. -/
def expectL : List Char → List Char → Option (List Char)
  | [], l => some l
  | _ :: _, [] => none
  | p :: ps, x :: xs => if x = p then expectL ps xs else none

/-- Model of the JSON.parse grammar (without insignificant whitespace), fuel
bounding the nesting depth; structural recursion on the fuel. -/
def parseM : Nat → PMode → List Char → Option (PRes × List Char)
  | 0, _, _ => none
  | Nat.succ fuel, PMode.mval, cs =>
    match cs with
    | [] => none
    | c :: rest =>
      if c = 'n' then
        match expectL (toCl "ull") rest with
        | some rs => some (PRes.rv JsonVal.jnull, rs)
        | none => none
      else if c = 't' then
        match expectL (toCl "rue") rest with
        | some rs => some (PRes.rv (JsonVal.jbool true), rs)
        | none => none
      else if c = 'f' then
        match expectL (toCl "alse") rest with
        | some rs => some (PRes.rv (JsonVal.jbool false), rs)
        | none => none
      else if c = '"' then
        match parseStr rest with
        | some (s, rs) => some (PRes.rv (JsonVal.jstr s), rs)
        | none => none
      else if c = '-' then
        match rest with
        | [] => none
        | d :: rs2 =>
          match parseDigit d with
          | some v0 =>
            some (PRes.rv (JsonVal.jnum (-(Int.ofNat (grabDigits v0 rs2).1))),
              (grabDigits v0 rs2).2)
          | none => none
      else
        match parseDigit c with
        | some v0 =>
          some (PRes.rv (JsonVal.jnum (Int.ofNat (grabDigits v0 rest).1)),
            (grabDigits v0 rest).2)
        | none =>
          if c = '[' then
            match rest with
            | [] => none
            | r :: rs =>
              if r = ']' then some (PRes.rv (JsonVal.jarr []), rs)
              else
                match parseM fuel PMode.melems (r :: rs) with
                | some (PRes.ra xs, rs2) => some (PRes.rv (JsonVal.jarr xs), rs2)
                | _ => none
          else if c = '\x7b' then
            match rest with
            | [] => none
            | r :: rs =>
              if r = '\x7d' then some (PRes.rv (JsonVal.jobj []), rs)
              else
                match parseM fuel PMode.mfields (r :: rs) with
                | some (PRes.ro fs, rs2) => some (PRes.rv (JsonVal.jobj fs), rs2)
                | _ => none
          else none
  | Nat.succ fuel, PMode.melems, cs =>
    match parseM fuel PMode.mval cs with
    | some (PRes.rv v, rs) =>
      match rs with
      | [] => none
      | r :: rs2 =>
        if r = ',' then
          match parseM fuel PMode.melems rs2 with
          | some (PRes.ra xs, r2) => some (PRes.ra (v :: xs), r2)
          | _ => none
        else if r = ']' then some (PRes.ra [v], rs2)
        else none
    | _ => none
  | Nat.succ fuel, PMode.mfields, cs =>
    match cs with
    | [] => none
    | q :: cs2 =>
      if q = '"' then
        match parseStr cs2 with
        | some (k, rs) =>
          match rs with
          | [] => none
          | col :: rs2 =>
            if col = ':' then
              match parseM fuel PMode.mval rs2 with
              | some (PRes.rv v, rs3) =>
                match rs3 with
                | [] => none
                | r :: rs4 =>
                  if r = ',' then
                    match parseM fuel PMode.mfields rs4 with
                    | some (PRes.ro fs, r2) => some (PRes.ro ((k, v) :: fs), r2)
                    | _ => none
                  else if r = '\x7d' then some (PRes.ro [(k, v)], rs4)
                  else none
              | _ => none
            else none
        | none => none
      else none

/-- Model of JSON.parse on a whole string: a single value with no trailing
content, none on any parse error (JSON.parse throwing). -/
def parseJson (s : List Char) : Option JsonVal :=
  match parseM (s.length + 1) PMode.mval s with
  | some (PRes.rv v, []) => some v
  | _ => none

/-- The list does not continue with a digit (so a maximal digit run ends
here). -/
def notDigitStart : List Char → Prop
  | [] => True
  | c :: _ => parseDigit c = none

/-- Association-list lookup for the storage model (first match; browser
storage keys are unique so there is at most one). -/
def lookupS (data : List (List Char × List Char)) (k : List Char) : Option (List Char) :=
  match data with
  | [] => none
  | (k2, v) :: tl => if k2 = k then some v else lookupS tl k

/-- Insert or replace a key in the storage association list. -/
def insertS (data : List (List Char × List Char)) (k v : List Char) : List (List Char × List Char) :=
  match data with
  | [] => [(k, v)]
  | (k2, w) :: tl => if k2 = k then (k, v) :: tl else (k2, w) :: insertS tl k v

/-- One browser storage area (localStorage or sessionStorage): its key-value
data and whether access to it throws (disabled storage, quota). -/
structure Storage where
  data : List (List Char × List Char)
  fails : Bool

/-- Model of storage.getItem: throws when the storage fails, otherwise the
stored string or null. -/
def getItemE (s : Storage) (k : List Char) : Except Unit (Option (List Char)) :=
  if s.fails then Except.error () else Except.ok (lookupS s.data k)

/-- Model of storage.setItem: throws when the storage fails, otherwise the
updated storage. -/
def setItemE (s : Storage) (k v : List Char) : Except Unit Storage :=
  if s.fails then Except.error () else Except.ok { s with data := insertS s.data k v }

/-- The two browser storage areas the pages use. -/
structure BrowserState where
  localS : Storage
  sessionS : Storage

/-- The storage key both pages use for the last decomposition response
(src/static/common.js line 145, src/static/main.js line 97,
src/static/agentic.js line 319). -/
def storageKey : List Char := toCl "lastWorkflowResponse"

/-- Embedding of saveLastWorkflowResponse (src/static/common.js lines
143-149, inlined identically in src/static/main.js lines 96-100 and
src/unnamed/part_000 lines 68-72): store JSON.stringify(data) under
'lastWorkflowResponse' in localStorage, falling back to sessionStorage when
that throws, swallowing a second failure. -/
def saveLastWorkflowResponse (st : BrowserState) (data : JsonVal) : BrowserState :=
  match setItemE st.localS storageKey (stringifyJson data) with
  | Except.ok l => { st with localS := l }
  | Except.error _ =>
    match setItemE st.sessionS storageKey (stringifyJson data) with
    | Except.ok s => { st with sessionS := s }
    | Except.error _ => st

/-- JavaScript falsiness of the raw value read from storage: null (none) or
the empty string. -/
def rawFalsy : Option (List Char) → Bool
  | none => true
  | some [] => true
  | some (_ :: _) => false

/-- The raw string getLastWorkflowResponse selects before parsing
(src/static/common.js lines 152-154, src/static/agentic.js lines 318-320):
localStorage first, and when that throws or yields a falsy value, the
sessionStorage read overwrites it unless that read itself throws. -/
def rawRead (st : BrowserState) : Option (List Char) :=
  let r1 : Option (List Char) :=
    match getItemE st.localS storageKey with
    | Except.error _ => none
    | Except.ok v => v
  if rawFalsy r1 then
    match getItemE st.sessionS storageKey with
    | Except.error _ => r1
    | Except.ok v => v
  else r1

/-- Embedding of getLastWorkflowResponse (src/static/common.js lines
151-157, duplicated in src/static/agentic.js lines 317-323 and 129-135):
null when nothing truthy is stored or JSON.parse throws, else the parsed
value. -/
def getLastWorkflowResponse (st : BrowserState) : Option JsonVal :=
  match rawRead st with
  | none => none
  | some s => if s = [] then none else parseJson s

/-- JavaScript whitespace characters recognised by String.prototype.trim
(the common ASCII ones; the model's input alphabet). -/
def isWSChar (c : Char) : Bool :=
  c = ' ' || c = '\t' || c = '\n' || c = '\r' || c = '\x0b' || c = '\x0c'

/-- Drop leading whitespace. -/
def dropWS : List Char → List Char
  | [] => []
  | c :: cs => if isWSChar c then dropWS cs else c :: cs

/-- Model of String.prototype.trim: drop leading and trailing whitespace. -/
def jsTrim (s : List Char) : List Char := (dropWS (dropWS s).reverse).reverse

/-- Body of the POST /decompose request built by decompose
(src/unnamed/part_000 line 61; src/static/main.js line 89 is the same
without granularity). -/
structure DecomposeBody where
  text : List Char
  title : Option (List Char)
  granularity : List Char

/-- Embedding of the input gate and request construction of decompose
(src/unnamed/part_000 lines 44-62): trim the input, reject when the trimmed
text is empty (alert and return, nothing sent), otherwise send the trimmed
text, the trimmed title or null, and the granularity. -/
def decomposeRequest (input title gran : List Char) : Option DecomposeBody :=
  let text := jsTrim input
  let t := jsTrim title
  if text.isEmpty then none
  else some { text := text, title := if t.isEmpty then none else some t, granularity := gran }

/-- Embedding of one full run of decompose (src/unnamed/part_000 lines
44-94): when the gate rejects, nothing is sent and the browser state is
unchanged; when the fetch fails or returns not-ok (modelled by the response
function returning none) nothing is stored; on success the response is
persisted under 'lastWorkflowResponse' exactly as saveLastWorkflowResponse
does (the page inlines the same localStorage-then-sessionStorage logic). -/
def decomposeRun (st : BrowserState) (input title gran : List Char)
    (resp : DecomposeBody → Option JsonVal) : BrowserState × Option JsonVal :=
  match decomposeRequest input title gran with
  | none => (st, none)
  | some body =>
    match resp body with
    | none => (st, none)
    | some data => (saveLastWorkflowResponse st data, some data)

/-- JavaScript truthiness of a parsed JSON value. -/
def jsTruthy : JsonVal → Bool
  | JsonVal.jnull => false
  | JsonVal.jbool b => b
  | JsonVal.jnum n => decide (n ≠ 0)
  | JsonVal.jstr s => decide (s ≠ [])
  | JsonVal.jarr _ => true
  | JsonVal.jobj _ => true

/-- JavaScript property access on a parsed JSON value: the last binding of
the key on an object (JSON.parse keeps the last duplicate), undefined
(none) otherwise. -/
def getField (v : JsonVal) (k : List Char) : Option JsonVal :=
  match v with
  | JsonVal.jobj fs => getFieldIn fs k
  | _ => none
where
  getFieldIn : List (List Char × JsonVal) → List Char → Option JsonVal
  | [], _ => none
  | (k2, w) :: tl, k =>
    match getFieldIn tl k with
    | some r => some r
    | none => if k2 = k then some w else none

/-- Embedding of generateAgentic up to the POST /agentic_plan request
(src/static/agentic.js lines 204-222): read the latest stored response via
getLastWorkflowResponse, return without a request when it or its workflow
field is absent or falsy, otherwise send the body with the single key
workflow holding that field's value. -/
def generateAgenticRequest (st : BrowserState) : Option JsonVal :=
  match getLastWorkflowResponse st with
  | none => none
  | some latest =>
    if jsTruthy latest then
      match getField latest (toCl "workflow") with
      | none => none
      | some w =>
        if jsTruthy w then some (JsonVal.jobj [(toCl "workflow", w)]) else none
    else none

/-- Input of escapeHtml as the JavaScript call sites use it: null, undefined
or a string value. -/
inductive EscIn where
  | enull : EscIn
  | eundef : EscIn
  | estr (s : List Char) : EscIn

/-- The JavaScript coercion String(s || '') restricted to the model's input
type: null and undefined (and the empty string itself) give the empty
string. -/
def escInput : EscIn → List Char
  | EscIn.enull => []
  | EscIn.eundef => []
  | EscIn.estr s => s

/-- Model of String.prototype.replaceAll with a single-character pattern:
each occurrence becomes the replacement, replacements are not rescanned. -/
def replaceAllC (c : Char) (rep : List Char) : List Char → List Char
  | [] => []
  | x :: xs => (if x = c then rep else [x]) ++ replaceAllC c rep xs

/-- Embedding of escapeHtml on the string it operates on
(src/static/common.js lines 97-104, src/static/agentic.js lines 137-144 and
325-332): replace ampersand first, then angle brackets, double quote and
single quote by their entities. -/
def escapeHtmlL (s : List Char) : List Char :=
  replaceAllC '\'' (toCl "&#39;")
    (replaceAllC '"' (toCl "&quot;")
      (replaceAllC '>' (toCl "&gt;")
        (replaceAllC '<' (toCl "&lt;")
          (replaceAllC '&' (toCl "&amp;") s))))

/-- Embedding of escapeHtml including the String(s || '') coercion. -/
def escapeHtml (v : EscIn) : List Char := escapeHtmlL (escInput v)

/-- Per-character escaping table equal to the composition of the five
replaceAll passes. -/
def escTable (c : Char) : List Char :=
  if c = '&' then toCl "&amp;"
  else if c = '<' then toCl "&lt;"
  else if c = '>' then toCl "&gt;"
  else if c = '"' then toCl "&quot;"
  else if c = '\'' then toCl "&#39;"
  else [c]

/-- Boolean membership of a character in a character list. -/
def memC (c : Char) : List Char → Bool
  | [] => false
  | x :: xs => if x = c then true else memC c xs

/-- Does the pattern start the list? -/
def startsWithC : List Char → List Char → Bool
  | [], _ => true
  | _ :: _, [] => false
  | p :: ps, x :: xs => if p = x then startsWithC ps xs else false

/-- After this position the list continues with one of the five entity
bodies emitted by escapeHtml. -/
def entityAt (l : List Char) : Bool :=
  startsWithC (toCl "amp;") l || startsWithC (toCl "lt;") l ||
  startsWithC (toCl "gt;") l || startsWithC (toCl "quot;") l ||
  startsWithC (toCl "#39;") l

/-- Every ampersand in the list starts one of the five entities. -/
def ampOk : List Char → Bool
  | [] => true
  | c :: rest => (if c = '&' then entityAt rest else true) && ampOk rest

namespace Wf

/-- Modelled from the spec: the Task data model of spec.md section 3 (the
core engine's code is not among the repository's files; only this front end
is). -/
inductive Actor where
  | agent : Actor
  | human : Actor
deriving DecidableEq

/-- Modelled from the spec: a Task (spec.md section 3). -/
structure Task where
  id : String
  title : String
  actor : Actor
  depends_on : List String
  inputs : List String
  outputs : List String
  tool : Option String
  approval : Bool
  acceptance_criteria : List String
  parallelizable : Bool
deriving DecidableEq

/-- Modelled from the spec: a Workflow (spec.md section 3; the edges field
is redundant with depends_on and derived, so the model keeps only the
dependency lists). -/
structure Workflow where
  title : Option String
  tasks : List Task
  assumptions : List String
  version : String
deriving DecidableEq

/-- The ids of a task list. -/
def taskIds (ts : List Task) : List String := ts.map Task.id

/-- Invariant 5: task ids are unique within a workflow. -/
def IdsNodup (ts : List Task) : Prop := (taskIds ts).Nodup

/-- Invariant 2: no task depends on itself. -/
def NoSelfDep (ts : List Task) : Prop := ∀ t ∈ ts, t.id ∉ t.depends_on

/-- Invariant 1: every dependency references an existing task id. -/
def DepsClosed (ts : List Task) : Prop :=
  ∀ t ∈ ts, ∀ d ∈ t.depends_on, d ∈ taskIds ts

/-- Invariant 3: no duplicate dependency edges. -/
def DepsNodup (ts : List Task) : Prop := ∀ t ∈ ts, t.depends_on.Nodup

instance (ts : List Task) : Decidable (IdsNodup ts) :=
  inferInstanceAs (Decidable (taskIds ts).Nodup)

instance (ts : List Task) : Decidable (NoSelfDep ts) :=
  inferInstanceAs (Decidable (∀ t ∈ ts, t.id ∉ t.depends_on))

instance (ts : List Task) : Decidable (DepsClosed ts) :=
  inferInstanceAs (Decidable (∀ t ∈ ts, ∀ d ∈ t.depends_on, d ∈ taskIds ts))

instance (ts : List Task) : Decidable (DepsNodup ts) :=
  inferInstanceAs (Decidable (∀ t ∈ ts, t.depends_on.Nodup))

/-- The dependency edge relation: u depends on v. -/
def depRel (ts : List Task) (u v : String) : Prop :=
  ∃ t ∈ ts, t.id = u ∧ v ∈ t.depends_on

/-- Invariant 4: the dependency relation is acyclic (no nonempty dependency
path from a task back to itself). -/
def AcyclicT (ts : List Task) : Prop :=
  ∀ u, ¬ Relation.TransGen (depRel ts) u u

/-- A rank function strictly decreasing along dependency edges; its
existence certifies acyclicity and is what the repair establishes. -/
def RankOkT (ts : List Task) : Prop :=
  ∃ r : String → Nat, ∀ t ∈ ts, ∀ d ∈ t.depends_on, r d < r t.id

/-- Modelled from the spec: repair step 1 of the Graph Validator & Repairer
(spec.md section 4.2): drop duplicate task ids keeping the first occurrence,
recording each collision. -/
def dedupTasks : List String → List Task → List Task × List String
  | _, [] => ([], [])
  | seen, t :: ts =>
    if t.id ∈ seen then
      let r := dedupTasks seen ts
      (r.1, ("Dropped duplicate task id: " ++ t.id) :: r.2)
    else
      let r := dedupTasks (t.id :: seen) ts
      (t :: r.1, r.2)

/-- Modelled from the spec: repair step 2 (spec.md section 4.2): remove
self-dependencies, recording each removal. -/
def stripSelf : List Task → List Task × List String
  | [] => ([], [])
  | t :: ts =>
    let d2 := t.depends_on.filter (fun d => d ≠ t.id)
    let r := stripSelf ts
    if d2.length = t.depends_on.length then (t :: r.1, r.2)
    else ({ t with depends_on := d2 } :: r.1,
      ("Removed self-dependency of task: " ++ t.id) :: r.2)

/-- Modelled from the spec: repair step 3 (spec.md section 4.2): remove
dependencies on non-existent ids, recording each removal. -/
def stripMissing (ids : List String) : List Task → List Task × List String
  | [] => ([], [])
  | t :: ts =>
    let d2 := t.depends_on.filter (fun d => d ∈ ids)
    let r := stripMissing ids ts
    if d2.length = t.depends_on.length then (t :: r.1, r.2)
    else ({ t with depends_on := d2 } :: r.1,
      ("Removed dependency of task " ++ t.id ++ " on missing ids") :: r.2)

/-- First-occurrence deduplication of a dependency list. -/
def dedupDeps : List String → List String → List String
  | _, [] => []
  | seen, d :: ds =>
    if d ∈ seen then dedupDeps seen ds else d :: dedupDeps (d :: seen) ds

/-- Modelled from the spec: repair step 4 (spec.md section 4.2):
deduplicate repeated dependency entries per task, recording each task
affected. -/
def stripDupDeps : List Task → List Task × List String
  | [] => ([], [])
  | t :: ts =>
    let d2 := dedupDeps [] t.depends_on
    let r := stripDupDeps ts
    if d2.length = t.depends_on.length then (t :: r.1, r.2)
    else ({ t with depends_on := d2 } :: r.1,
      ("Removed duplicate dependency entries of task: " ++ t.id) :: r.2)

/-- Dependencies of a task id within a task list (empty for unknown ids). -/
def depsOf (ts : List Task) (u : String) : List String :=
  match ts.find? (fun t => t.id = u) with
  | some t => t.depends_on
  | none => []

/-- State of the three-colour depth-first traversal of spec.md section 4.2
step 5: pending roots, the explicit stack of (node, unprocessed
dependencies) frames, the grey set (equal to the stack nodes), the black
list in finishing order, and the edges cut at back-edges. -/
structure MState where
  roots : List String
  stack : List (String × List String)
  grey : List String
  black : List String
  cut : List (String × String)
deriving DecidableEq

/-- Modelled from the spec: one step of the depth-first cycle repair
(spec.md section 4.2 step 5): process the top frame's next dependency (grey
target: back-edge, cut it; black target: skip; white target: push), pop
finished frames, and start the next root when the stack is empty. -/
def mstep (ts : List Task) (s : MState) : MState :=
  match s.stack with
  | (u, v :: vs) :: rest =>
    if v ∈ s.grey then
      { s with stack := (u, vs) :: rest, cut := s.cut ++ [(u, v)] }
    else if v ∈ s.black then
      { s with stack := (u, vs) :: rest }
    else
      { s with stack := (v, depsOf ts v) :: (u, vs) :: rest, grey := v :: s.grey }
  | (u, []) :: rest =>
    { s with stack := rest, grey := s.grey.tail, black := s.black ++ [u] }
  | [] =>
    match s.roots with
    | [] => s
    | r :: rs =>
      if r ∈ s.grey ∨ r ∈ s.black then { s with roots := rs }
      else { s with roots := rs, stack := [(r, depsOf ts r)], grey := r :: s.grey }

/-- Iterate the traversal step. -/
def miter (ts : List Task) : Nat → MState → MState
  | 0, s => s
  | Nat.succ n, s => miter ts n (mstep ts s)

/-- The traversal is finished: no pending root, empty stack. -/
def MTerminal (s : MState) : Prop := s.stack = [] ∧ s.roots = []

/-- Step-count measure of the traversal: every non-terminal step strictly
decreases it. -/
def mMeasure (ts : List Task) (s : MState) : Nat :=
  2 * s.roots.length
    + (s.stack.map (fun f => f.2.length)).sum + s.stack.length
    + (((taskIds ts).filter
        (fun w => !(s.grey.contains w || s.black.contains w))).map
        (fun w => (depsOf ts w).length + 3)).sum

/-- Initial traversal state: every task id is a pending root. -/
def mInit (ts : List Task) : MState :=
  { roots := taskIds ts, stack := [], grey := [], black := [], cut := [] }

/-- Run the traversal to completion. -/
def mRun (ts : List Task) : MState :=
  miter ts (mMeasure ts (mInit ts) + 1) (mInit ts)

/-- Modelled from the spec: repair step 5 (spec.md section 4.2): cut the
back-edges the three-colour depth-first traversal found, recording each cut
edge. -/
def dfsCut (ts : List Task) : List Task × List String :=
  let m := mRun ts
  (ts.map (fun t =>
      { t with depends_on :=
          t.depends_on.filter (fun v => !(m.cut.contains (t.id, v))) }),
   m.cut.map (fun e =>
     "Cut cyclic dependency edge from " ++ e.1 ++ " to " ++ e.2))

/-- A task is ready for Kahn's algorithm when all its dependencies are
already emitted. -/
def readyB (done : List String) (t : Task) : Bool :=
  t.depends_on.all (fun d => done.contains d)

/-- Modelled from the spec: the loop of Kahn's algorithm (spec.md section
4.2): repeatedly emit the first remaining task whose dependencies are all
done, ties broken by original task-sequence position. -/
def kahnLoop : Nat → List Task → List String → List String
  | 0, _, _ => []
  | Nat.succ fuel, remaining, done =>
    match remaining.find? (readyB done) with
    | none => []
    | some t =>
      t.id :: kahnLoop fuel (remaining.filter (fun x => x.id ≠ t.id)) (done ++ [t.id])

/-- Modelled from the spec: the topological order of the repaired graph
computed with Kahn's algorithm (spec.md section 4.2). -/
def kahnTopo (ts : List Task) : List String := kahnLoop ts.length ts []

/-- Modelled from the spec: the Graph Validator & Repairer (spec.md section
4.2): apply the five repairs in order, fail when no task remains (step 6),
and return the repaired workflow, the collected issues, and the topological
order. -/
def validateRepair (wf : Workflow) : Except String (Workflow × List String × List String) :=
  let p1 := dedupTasks [] wf.tasks
  let p2 := stripSelf p1.1
  let p3 := stripMissing (taskIds p2.1) p2.1
  let p4 := stripDupDeps p3.1
  let p5 := dfsCut p4.1
  if p5.1.isEmpty then Except.error "workflow has no tasks"
  else Except.ok ({ wf with tasks := p5.1 },
    p1.2 ++ p2.2 ++ p3.2 ++ p4.2 ++ p5.2, kahnTopo p5.1)

/-- Modelled from the spec: a synthesized non-human owner (spec.md section
3, AgentSpec). -/
structure AgentSpec where
  id : String
  name : String
  description : String
  skills : List String
  tools : List String
deriving DecidableEq

/-- Modelled from the spec: a synthesized human role (spec.md section 3,
HumanSpec). -/
structure HumanSpec where
  id : String
  name : String
  description : String
deriving DecidableEq

/-- Owner kind of an assignment. -/
inductive OwnerType where
  | agent : OwnerType
  | human : OwnerType
deriving DecidableEq

/-- Modelled from the spec: an AssignedTask linking one task to exactly one
owner (spec.md section 3). -/
structure AssignedTask where
  task_id : String
  owner_type : OwnerType
  owner_id : String
  instructions : String
  inputs : List String
  outputs : List String
deriving DecidableEq

/-- Modelled from the spec: the ownership plan returned by the Ownership
Planner (spec.md section 4.4). -/
structure AgenticPlan where
  agents : List AgentSpec
  humans : List HumanSpec
  assignments : List AssignedTask
deriving DecidableEq

/-- Stop words removed before picking a title's dominant verb (spec.md
section 4.4 step 2). -/
def stopWords : List (List Char) :=
  [toCl "the", toCl "a", toCl "an", toCl "to", toCl "of", toCl "and",
   toCl "for", toCl "with", toCl "on", toCl "in"]

/-- Split a character list into space-separated words. -/
def splitWordsAux : List Char → List Char → List (List Char)
  | [], acc => if acc = [] then [] else [acc.reverse]
  | c :: cs, acc =>
    if c = ' ' then
      if acc = [] then splitWordsAux cs [] else acc.reverse :: splitWordsAux cs []
    else splitWordsAux cs (c :: acc)

/-- Words of a character list. -/
def splitWords (cs : List Char) : List (List Char) := splitWordsAux cs []

/-- Modelled from the spec: the dominant verb of a task title (spec.md
section 4.4 step 2): first lowercased word that is not a stop word. -/
def dominantVerb (title : String) : String :=
  match (splitWords (title.toList.map Char.toLower)).filter
      (fun w => !(stopWords.contains w)) with
  | [] => ""
  | w :: _ => String.mk w

/-- Clustering key of an agent-candidate task: its tool when set and
non-empty, else the dominant verb of its title; tool match thereby beats
verb match (spec.md section 4.4, tie-break policy). -/
inductive ClusterKey where
  | toolK (tool : String)
  | verbK (verb : String)
deriving DecidableEq

/-- The clustering key of a task. -/
def clusterKey (t : Task) : ClusterKey :=
  match t.tool with
  | some tl => if tl = "" then ClusterKey.verbK (dominantVerb t.title) else ClusterKey.toolK tl
  | none => ClusterKey.verbK (dominantVerb t.title)

/-- First-occurrence deduplication of cluster keys. -/
def dedupKeys : List ClusterKey → List ClusterKey → List ClusterKey
  | _, [] => []
  | seen, k :: ks =>
    if k ∈ seen then dedupKeys seen ks else k :: dedupKeys (k :: seen) ks

/-- Index of a cluster key in the key list (its discovery position). -/
def keyIdx (k : ClusterKey) : List ClusterKey → Nat
  | [] => 0
  | k2 :: ks => if k2 = k then 0 else keyIdx k ks + 1

/-- The agent-candidate tasks: actor agent (spec.md section 4.4 step 1). -/
def agentTasks (wf : Workflow) : List Task :=
  wf.tasks.filter (fun t => t.actor = Actor.agent)

/-- The distinct agent cluster keys in task order. -/
def agentKeys (wf : Workflow) : List ClusterKey :=
  dedupKeys [] ((agentTasks wf).map clusterKey)

/-- First-occurrence deduplication of strings. -/
def dedupStr : List String → List String → List String
  | _, [] => []
  | seen, s :: ss =>
    if s ∈ seen then dedupStr seen ss else s :: dedupStr (s :: seen) ss

/-- Agent id for the cluster at a discovery index: A1, A2, ... -/
def agentIdAt (i : Nat) : String := String.mk ('A' :: natDigits (i + 1))

/-- Modelled from the spec: the AgentSpec synthesized for one cluster
(spec.md section 4.4 step 2): skills are the union of inferred verb tags of
its member tasks, tools the union of their non-empty tool fields. -/
def mkAgent (wf : Workflow) (i : Nat) (k : ClusterKey) : AgentSpec :=
  let members := (agentTasks wf).filter (fun t => clusterKey t = k)
  { id := agentIdAt i,
    name := (match k with
      | ClusterKey.toolK tl => tl
      | ClusterKey.verbK v => if v = "" then "general" else v) ++ " agent",
    description := "Handles similar tasks clustered by tool or dominant verb",
    skills := dedupStr [] ((members.map (fun t => dominantVerb t.title)).filter (fun v => v ≠ "")),
    tools := dedupStr [] (members.filterMap (fun t =>
      match t.tool with
      | some tl => if tl = "" then none else some tl
      | none => none)) }

/-- Pair each list element with its position. -/
def withIdx : Nat → List ClusterKey → List (Nat × ClusterKey)
  | _, [] => []
  | i, k :: ks => (i, k) :: withIdx (i + 1) ks

/-- The synthesized agents, one per cluster key in discovery order. -/
def agentsFor (wf : Workflow) : List AgentSpec :=
  (withIdx 0 (agentKeys wf)).map (fun p => mkAgent wf p.1 p.2)

/-- The human approval tasks. -/
def approvalTasks (wf : Workflow) : List Task :=
  wf.tasks.filter (fun t => t.actor = Actor.human && t.approval)

/-- The human non-approval tasks. -/
def operatorTasks (wf : Workflow) : List Task :=
  wf.tasks.filter (fun t => t.actor = Actor.human && !t.approval)

/-- Modelled from the spec: the synthesized human roles (spec.md section
4.4 step 3, default roles): one Approver role when approval tasks exist,
one Operator role for other human tasks. -/
def humansFor (wf : Workflow) : List HumanSpec :=
  (if (approvalTasks wf).isEmpty then []
   else [{ id := "H1", name := "Approver",
           description := "Reviews and signs off approval gates" }])
  ++ (if (operatorTasks wf).isEmpty then []
      else [{ id := "H2", name := "Operator",
              description := "Performs manual non-approval tasks" }])

/-- The owner assigned to one task: human tasks go to the Approver or
Operator role, agent tasks to their cluster's agent. -/
def ownerFor (wf : Workflow) (t : Task) : OwnerType × String :=
  if t.actor = Actor.human then
    (OwnerType.human, if t.approval then "H1" else "H2")
  else
    (OwnerType.agent, agentIdAt (keyIdx (clusterKey t) (agentKeys wf)))

/-- Modelled from the spec: the generated imperative instructions restating
the task title and tool (spec.md section 4.4 step 4). -/
def instructionsFor (t : Task) : String :=
  "Execute: " ++ t.title ++
    (match t.tool with
     | some tl => if tl = "" then "" else " using " ++ tl
     | none => "")

/-- Modelled from the spec: the AssignedTask of one task (spec.md section
4.4 step 4), carrying its inputs and outputs forward unchanged. -/
def mkAssigned (wf : Workflow) (t : Task) : AssignedTask :=
  { task_id := t.id,
    owner_type := (ownerFor wf t).1,
    owner_id := (ownerFor wf t).2,
    instructions := instructionsFor t,
    inputs := t.inputs,
    outputs := t.outputs }

/-- Decidable check of the six data-model invariants used to gate planning
(spec.md section 7, PlanningInputInvalid); acyclicity is checked by Kahn
completion. -/
def checkInvariantsB (wf : Workflow) : Bool :=
  !wf.tasks.isEmpty
    && decide (IdsNodup wf.tasks)
    && decide (NoSelfDep wf.tasks)
    && decide (DepsClosed wf.tasks)
    && decide (DepsNodup wf.tasks)
    && (kahnTopo wf.tasks).length = wf.tasks.length

/-- Modelled from the spec: the Ownership Planner (spec.md section 4.4 and
section 7): reject workflows failing the invariants before clustering, else
return the agents, human roles and exactly one assignment per task. -/
def planOwnership (wf : Workflow) : Except String AgenticPlan :=
  if checkInvariantsB wf then
    Except.ok { agents := agentsFor wf, humans := humansFor wf,
                assignments := wf.tasks.map (mkAssigned wf) }
  else Except.error "workflow failed validation"

/-- Index of a string in a list (length when absent). -/
def idxOf (w : String) : List String → Nat
  | [] => 0
  | x :: xs => if x = w then 0 else idxOf w xs + 1

/-- Frame soundness of the traversal stack: for each frame, the
dependencies already consumed were cut, finished, or pushed above this
frame; the accumulator carries the nodes of the frames above. -/
def StackOk (ts : List Task) (cut : List (String × String)) (black : List String) :
    List String → List (String × List String) → Prop
  | _, [] => True
  | above, (u, pend) :: rest =>
    (u ∈ taskIds ts
      ∧ ∃ pre, depsOf ts u = pre ++ pend
          ∧ ∀ v ∈ pre, (u, v) ∈ cut ∨ v ∈ black ∨ v ∈ above)
    ∧ StackOk ts cut black (u :: above) rest

/-- Soundness of the finished list: every dependency of a finished node was
cut or finished strictly earlier. -/
def BlackOk (ts : List Task) (cut : List (String × String)) (black : List String) : Prop :=
  ∀ u ∈ black, ∀ v ∈ depsOf ts u, (u, v) ∈ cut ∨ ∃ l1 l2, black = l1 ++ u :: l2 ∧ v ∈ l1

/-- Invariant of the three-colour traversal machine. -/
structure MInv (ts : List Task) (s : MState) : Prop where
  grey_eq : s.grey = s.stack.map Prod.fst
  grey_nd : s.grey.Nodup
  stack_ok : StackOk ts s.cut s.black [] s.stack
  black_ok : BlackOk ts s.cut s.black
  black_sub : ∀ u ∈ s.black, u ∈ taskIds ts
  black_nd : s.black.Nodup
  gb_disj : ∀ u ∈ s.grey, u ∉ s.black
  cover : ∀ w ∈ taskIds ts, w ∈ s.roots ∨ w ∈ s.grey ∨ w ∈ s.black
  roots_sub : ∀ x ∈ s.roots, x ∈ taskIds ts

/-- The stack nodes form a chain of dependency edges from bottom to top
(each node is a dependency of the one below it). -/
def ChainOk (ts : List Task) : List String → Prop
  | [] => True
  | [_] => True
  | v :: u :: rest => v ∈ depsOf ts u ∧ ChainOk ts (u :: rest)

/-- Pass 1 of the validator: duplicate-id removal. -/
def pass1 (wf : Workflow) : List Task × List String := dedupTasks [] wf.tasks

/-- Pass 2 of the validator: self-dependency removal. -/
def pass2 (wf : Workflow) : List Task × List String := stripSelf (pass1 wf).1

/-- Pass 3 of the validator: dangling-dependency removal. -/
def pass3 (wf : Workflow) : List Task × List String :=
  stripMissing (taskIds (pass2 wf).1) (pass2 wf).1

/-- Pass 4 of the validator: duplicate-edge removal. -/
def pass4 (wf : Workflow) : List Task × List String := stripDupDeps (pass3 wf).1

/-- Pass 5 of the validator: cycle cutting. -/
def pass5 (wf : Workflow) : List Task × List String := dfsCut (pass4 wf).1

/-- All issue entries the five repair passes record. -/
def repairIssues (wf : Workflow) : List String :=
  (pass1 wf).2 ++ (pass2 wf).2 ++ (pass3 wf).2 ++ (pass4 wf).2 ++ (pass5 wf).2

def mkT (i : String) (ds : List String) : Task :=
  { id := i, title := i, actor := Actor.agent, depends_on := ds, inputs := [],
    outputs := [], tool := none, approval := false,
    acceptance_criteria := [], parallelizable := false }

def wfC1 : Workflow :=
  { title := none,
    tasks := [mkT "a" ["a", "b", "b", "zz"], mkT "a" [], mkT "b" ["c"],
      mkT "c" ["a"]],
    assumptions := [], version := "1" }


def wfC1out : Workflow :=
  { title := none,
    tasks := [mkT "a" ["b"], mkT "b" ["c"], mkT "c" []],
    assumptions := [], version := "1" }

def issC1 : List String :=
  ["Dropped duplicate task id: a", "Removed self-dependency of task: a",
   "Removed dependency of task a on missing ids",
   "Removed duplicate dependency entries of task: a",
   "Cut cyclic dependency edge from c to a"]

def topoC1 : List String := ["c", "b", "a"]

def planC2 : AgenticPlan :=
  { agents :=
      [{ id := "A1", name := "general agent",
         description := "Handles similar tasks clustered by tool or dominant verb",
         skills := [], tools := [] },
       { id := "A2", name := "b agent",
         description := "Handles similar tasks clustered by tool or dominant verb",
         skills := ["b"], tools := [] },
       { id := "A3", name := "c agent",
         description := "Handles similar tasks clustered by tool or dominant verb",
         skills := ["c"], tools := [] }],
    humans := [],
    assignments :=
      [{ task_id := "a", owner_type := OwnerType.agent, owner_id := "A1",
         instructions := "Execute: a", inputs := [], outputs := [] },
       { task_id := "b", owner_type := OwnerType.agent, owner_id := "A2",
         instructions := "Execute: b", inputs := [], outputs := [] },
       { task_id := "c", owner_type := OwnerType.agent, owner_id := "A3",
         instructions := "Execute: c", inputs := [], outputs := [] }] }

def respC6 : JsonVal := JsonVal.jobj [(toCl "workflow", JsonVal.jobj [])]

def stC6 : BrowserState :=
  ⟨⟨[(storageKey, toCl "\x7b\x22workflow\x22:\x7b\x7d\x7d")], false⟩, ⟨[], false⟩⟩

def stC6e : BrowserState :=
  { localS := { data := [], fails := false },
    sessionS := { data := [], fails := false } }

def stC10 : BrowserState :=
  { localS := { data := [], fails := false },
    sessionS := { data := [], fails := true } }

def dC10 : JsonVal :=
  JsonVal.jobj [(toCl "workflow", JsonVal.jarr [JsonVal.jnum 1, JsonVal.jnull])]

end Wf

theorem digitChar_parse {n : Nat} (h : n < 10) : parseDigit (digitChar n) = some n := by
  interval_cases n <;> decide

theorem grabDigits_stop {rest : List Char} (h : notDigitStart rest) (acc : Nat) :
    grabDigits acc rest = (acc, rest) := by
  cases rest with
  | nil => rfl
  | cons c cs =>
    have h2 : parseDigit c = none := h
    simp [grabDigits, h2]

theorem grabDigits_run : ∀ (ds : List Char) (acc : Nat) (rest : List Char),
    (∀ c ∈ ds, (parseDigit c).isSome) → notDigitStart rest →
    grabDigits acc (ds ++ rest) =
      (ds.foldl (fun a c => a * 10 + (parseDigit c).getD 0) acc, rest) := by
  intro ds
  induction ds with
  | nil => intro acc rest _ hrest; simpa using grabDigits_stop hrest acc
  | cons c cs ih =>
    intro acc rest hds hrest
    have hc : (parseDigit c).isSome := hds c (by simp)
    obtain ⟨d, hd⟩ := Option.isSome_iff_exists.mp hc
    simp only [List.cons_append, grabDigits, hd, List.foldl_cons, Option.getD_some]
    exact ih _ rest (fun x hx => hds x (by simp [hx])) hrest

theorem natDigitsAux_all_digits : ∀ (fuel n : Nat), n < fuel →
    ∀ c ∈ natDigitsAux fuel n, (parseDigit c).isSome := by
  intro fuel
  induction fuel with
  | zero => omega
  | succ fuel ih =>
    intro n hn c hc
    by_cases h10 : n < 10
    · simp only [natDigitsAux, if_pos h10, List.mem_singleton] at hc
      subst hc; simp [digitChar_parse h10]
    · simp only [natDigitsAux, if_neg h10, List.mem_append, List.mem_singleton] at hc
      rcases hc with hc | hc
      · exact ih (n / 10) (by omega) c hc
      · subst hc; simp [digitChar_parse (Nat.mod_lt n (by omega))]

theorem natDigitsAux_foldl : ∀ (fuel n acc : Nat), n < fuel →
    (natDigitsAux fuel n).foldl (fun a c => a * 10 + (parseDigit c).getD 0) acc =
      acc * 10 ^ (natDigitsAux fuel n).length + n := by
  intro fuel
  induction fuel with
  | zero => omega
  | succ fuel ih =>
    intro n acc hn
    by_cases h10 : n < 10
    · simp [natDigitsAux, if_pos h10, digitChar_parse h10]
    · have hdiv : n / 10 < fuel := by
        have := Nat.div_lt_self (by omega : 0 < n) (by omega : 1 < 10)
        omega
      simp only [natDigitsAux, if_neg h10, List.foldl_append, List.foldl_cons,
        List.foldl_nil, List.length_append, List.length_singleton]
      rw [ih (n / 10) acc hdiv, digitChar_parse (Nat.mod_lt n (by omega))]
      simp only [Option.getD_some]
      have hpow : 10 ^ ((natDigitsAux fuel (n / 10)).length + 1) =
          10 ^ (natDigitsAux fuel (n / 10)).length * 10 := by ring
      rw [hpow]
      have hmod := Nat.div_add_mod n 10
      ring_nf
      omega

theorem natDigitsAux_ne_nil (fuel n : Nat) (h : n < fuel) : natDigitsAux fuel n ≠ [] := by
  cases fuel with
  | zero => omega
  | succ fuel =>
    by_cases h10 : n < 10 <;> simp [natDigitsAux, h10]

theorem parse_natDigits (n : Nat) (rest : List Char) (hrest : notDigitStart rest) :
    ∃ d0 ds v0, natDigits n = d0 :: ds ∧ parseDigit d0 = some v0 ∧
      grabDigits v0 (ds ++ rest) = (n, rest) := by
  have hne := natDigitsAux_ne_nil (n + 1) n (by omega)
  obtain ⟨d0, ds, hsplit⟩ : ∃ d0 ds, natDigitsAux (n + 1) n = d0 :: ds := by
    cases h : natDigitsAux (n + 1) n with
    | nil => exact absurd h hne
    | cons a b => exact ⟨a, b, rfl⟩
  have hall := natDigitsAux_all_digits (n + 1) n (by omega)
  have hd0 : (parseDigit d0).isSome := hall d0 (by rw [hsplit]; simp)
  obtain ⟨v0, hv0⟩ := Option.isSome_iff_exists.mp hd0
  refine ⟨d0, ds, v0, by rw [natDigits, hsplit], hv0, ?_⟩
  have hrun := grabDigits_run ds v0 rest
    (fun c hc => hall c (by rw [hsplit]; simp [hc])) hrest
  rw [hrun]
  have hfold := natDigitsAux_foldl (n + 1) n 0 (by omega)
  rw [hsplit] at hfold
  simp only [List.foldl_cons, hv0, Option.getD_some] at hfold
  simp only [Nat.zero_mul, Nat.zero_add] at hfold
  rw [hfold]

theorem parseStr_escJ : ∀ (s rest : List Char),
    parseStrA false (escJ s ++ '"' :: rest) = some (s, rest) := by
  intro s
  induction s with
  | nil =>
    intro rest
    rw [escJ, List.nil_append, parseStrA, if_pos rfl]
  | cons c cs ih =>
    intro rest
    by_cases hq : c = '"'
    · subst hq
      rw [escJ, if_pos rfl]
      simp only [List.cons_append]
      rw [parseStrA, if_neg (by decide), if_pos rfl]
      rw [parseStrA, ih]
    · by_cases hb : c = '\\'
      · subst hb
        rw [escJ, if_neg (by decide), if_pos rfl]
        simp only [List.cons_append]
        rw [parseStrA, if_neg (by decide), if_pos rfl]
        rw [parseStrA, ih]
      · rw [escJ, if_neg hq, if_neg hb]
        simp only [List.cons_append]
        rw [parseStrA, if_neg hq, if_neg hb, ih]

theorem parseDigit_cases {c : Char} {v : Nat} (h : parseDigit c = some v) :
    c = '0' ∨ c = '1' ∨ c = '2' ∨ c = '3' ∨ c = '4' ∨ c = '5' ∨ c = '6' ∨
    c = '7' ∨ c = '8' ∨ c = '9' := by
  by_cases h0 : c = '0'; · exact Or.inl h0
  by_cases h1 : c = '1'; · exact Or.inr (Or.inl h1)
  by_cases h2 : c = '2'; · tauto
  by_cases h3 : c = '3'; · tauto
  by_cases h4 : c = '4'; · tauto
  by_cases h5 : c = '5'; · tauto
  by_cases h6 : c = '6'; · tauto
  by_cases h7 : c = '7'; · tauto
  by_cases h8 : c = '8'; · tauto
  by_cases h9 : c = '9'; · tauto
  simp [parseDigit, h0, h1, h2, h3, h4, h5, h6, h7, h8, h9] at h

theorem parseDigit_not_special {c : Char} {v : Nat} (h : parseDigit c = some v) :
    (c = 'n') = False ∧ (c = 't') = False ∧ (c = 'f') = False ∧
    (c = '"') = False ∧ (c = '-') = False ∧ (c = ']') = False ∧
    (c = '\x7d') = False ∧ (c = ',') = False := by
  rcases parseDigit_cases h with h | h | h | h | h | h | h | h | h | h <;>
    subst h <;>
    exact ⟨by decide, by decide, by decide, by decide, by decide, by decide, by decide, by decide⟩

theorem jm_pos (v : JsonVal) : 1 ≤ jmP (JPack.pv v) := by
  cases v <;> simp [jmP]

theorem strHead (v : JsonVal) : ∃ c cs, strP (JPack.pv v) = c :: cs ∧
    (c = ']') = False ∧ (c = '\x7d') = False := by
  cases v with
  | jnull => exact ⟨'n', ['u', 'l', 'l'], by rw [strP]; rfl, by decide, by decide⟩
  | jbool b =>
    cases b
    · exact ⟨'f', ['a', 'l', 's', 'e'], by rw [strP]; rfl, by decide, by decide⟩
    · exact ⟨'t', ['r', 'u', 'e'], by rw [strP]; rfl, by decide, by decide⟩
  | jnum n =>
    cases n with
    | ofNat m =>
      obtain ⟨d0, ds, v0, hsplit, hd0, _⟩ := parse_natDigits m [] trivial
      obtain ⟨_, _, _, _, _, h1, h2, _⟩ := parseDigit_not_special hd0
      exact ⟨d0, ds, by rw [strP, ← hsplit], h1, h2⟩
    | negSucc m =>
      exact ⟨'-', natDigits (m + 1), by rw [strP], by decide, by decide⟩
  | jstr s => exact ⟨'"', escJ s ++ ['"'], by rw [strP], by decide, by decide⟩
  | jarr xs => exact ⟨'[', strP (JPack.pa xs) ++ [']'], by rw [strP], by decide, by decide⟩
  | jobj fs => exact ⟨'\x7b', strP (JPack.po fs) ++ ['\x7d'], by rw [strP], by decide, by decide⟩

theorem paHead (x : JsonVal) (tl : List JsonVal) : ∃ c cs,
    strP (JPack.pa (x :: tl)) = c :: cs ∧ (c = ']') = False ∧ (c = '\x7d') = False := by
  obtain ⟨c, cs, hc, h1, h2⟩ := strHead x
  cases tl with
  | nil => exact ⟨c, cs, by rw [strP, hc], h1, h2⟩
  | cons y tl2 =>
    exact ⟨c, cs ++ ',' :: strP (JPack.pa (y :: tl2)), by rw [strP, hc]; rfl, h1, h2⟩

theorem notDigitStart_cons {c : Char} (l : List Char) (h : parseDigit c = none) :
    notDigitStart (c :: l) := h

theorem parseStr_escJ' (s rest : List Char) :
    parseStr (escJ s ++ '"' :: rest) = some (s, rest) := parseStr_escJ s rest


theorem expectL_self : ∀ (pat rest : List Char), expectL pat (pat ++ rest) = some rest := by
  intro pat
  induction pat with
  | nil => intro rest; rfl
  | cons p ps ih => intro rest; simp [expectL, ih]

theorem parseM_val_unfold (fuel : Nat) (c : Char) (rest : List Char) :
    parseM (fuel + 1) PMode.mval (c :: rest) =
      (if c = 'n' then
        match expectL (toCl "ull") rest with
        | some rs => some (PRes.rv JsonVal.jnull, rs)
        | none => none
      else if c = 't' then
        match expectL (toCl "rue") rest with
        | some rs => some (PRes.rv (JsonVal.jbool true), rs)
        | none => none
      else if c = 'f' then
        match expectL (toCl "alse") rest with
        | some rs => some (PRes.rv (JsonVal.jbool false), rs)
        | none => none
      else if c = '"' then
        match parseStr rest with
        | some (s, rs) => some (PRes.rv (JsonVal.jstr s), rs)
        | none => none
      else if c = '-' then
        match rest with
        | [] => none
        | d :: rs2 =>
          match parseDigit d with
          | some v0 =>
            some (PRes.rv (JsonVal.jnum (-(Int.ofNat (grabDigits v0 rs2).1))),
              (grabDigits v0 rs2).2)
          | none => none
      else
        match parseDigit c with
        | some v0 =>
          some (PRes.rv (JsonVal.jnum (Int.ofNat (grabDigits v0 rest).1)),
            (grabDigits v0 rest).2)
        | none =>
          if c = '[' then
            match rest with
            | [] => none
            | r :: rs =>
              if r = ']' then some (PRes.rv (JsonVal.jarr []), rs)
              else
                match parseM fuel PMode.melems (r :: rs) with
                | some (PRes.ra xs, rs2) => some (PRes.rv (JsonVal.jarr xs), rs2)
                | _ => none
          else if c = '\x7b' then
            match rest with
            | [] => none
            | r :: rs =>
              if r = '\x7d' then some (PRes.rv (JsonVal.jobj []), rs)
              else
                match parseM fuel PMode.mfields (r :: rs) with
                | some (PRes.ro fs, rs2) => some (PRes.rv (JsonVal.jobj fs), rs2)
                | _ => none
          else none) := rfl

theorem parseM_elems_unfold (fuel : Nat) (cs : List Char) :
    parseM (fuel + 1) PMode.melems cs =
      (match parseM fuel PMode.mval cs with
      | some (PRes.rv v, rs) =>
        match rs with
        | [] => none
        | r :: rs2 =>
          if r = ',' then
            match parseM fuel PMode.melems rs2 with
            | some (PRes.ra xs, r2) => some (PRes.ra (v :: xs), r2)
            | _ => none
          else if r = ']' then some (PRes.ra [v], rs2)
          else none
      | _ => none) := rfl

theorem parseM_fields_unfold (fuel : Nat) (q : Char) (cs2 : List Char) :
    parseM (fuel + 1) PMode.mfields (q :: cs2) =
      (if q = '"' then
        match parseStr cs2 with
        | some (k, rs) =>
          match rs with
          | [] => none
          | col :: rs2 =>
            if col = ':' then
              match parseM fuel PMode.mval rs2 with
              | some (PRes.rv v, rs3) =>
                match rs3 with
                | [] => none
                | r :: rs4 =>
                  if r = ',' then
                    match parseM fuel PMode.mfields rs4 with
                    | some (PRes.ro fs, r2) => some (PRes.ro ((k, v) :: fs), r2)
                    | _ => none
                  else if r = '\x7d' then some (PRes.ro [(k, v)], rs4)
                  else none
              | _ => none
            else none
        | none => none
      else none) := rfl

theorem parseM_rt : ∀ fuel : Nat,
    (∀ (v : JsonVal) (rest : List Char), jmP (JPack.pv v) < fuel → notDigitStart rest →
      parseM fuel PMode.mval (strP (JPack.pv v) ++ rest) = some (PRes.rv v, rest))
    ∧ (∀ (x : JsonVal) (tl : List JsonVal) (rest : List Char),
      jmP (JPack.pa (x :: tl)) < fuel →
      parseM fuel PMode.melems (strP (JPack.pa (x :: tl)) ++ ']' :: rest) =
        some (PRes.ra (x :: tl), rest))
    ∧ (∀ (k : List Char) (v : JsonVal) (tl : List (List Char × JsonVal)) (rest : List Char),
      jmP (JPack.po ((k, v) :: tl)) < fuel →
      parseM fuel PMode.mfields (strP (JPack.po ((k, v) :: tl)) ++ '\x7d' :: rest) =
        some (PRes.ro ((k, v) :: tl), rest)) := by
  intro fuel
  induction fuel with
  | zero => exact ⟨fun v _ h => absurd h (by omega), fun x tl _ h => absurd h (by omega),
      fun k v tl _ h => absurd h (by omega)⟩
  | succ fuel ih =>
    obtain ⟨ihv, ihe, ihf⟩ := ih
    refine ⟨?_, ?_, ?_⟩
    · intro v rest hjm hrest
      cases v with
      | jnull =>
        rw [strP]
        show parseM (fuel + 1) PMode.mval ('n' :: (toCl "ull" ++ rest)) = _
        rw [parseM_val_unfold]
        simp [expectL_self]
      | jbool b =>
        cases b
        · rw [strP]
          show parseM (fuel + 1) PMode.mval ('f' :: (toCl "alse" ++ rest)) = _
          rw [parseM_val_unfold]
          simp [expectL_self]
        · rw [strP]
          show parseM (fuel + 1) PMode.mval ('t' :: (toCl "rue" ++ rest)) = _
          rw [parseM_val_unfold]
          simp [expectL_self]
      | jnum n =>
        cases n with
        | ofNat m =>
          obtain ⟨d0, ds, v0, hsplit, hd0, hgrab⟩ := parse_natDigits m rest hrest
          rw [strP, hsplit, List.cons_append, parseM_val_unfold]
          obtain ⟨hn, ht, hf, hq, hm, _, _, _⟩ := parseDigit_not_special hd0
          simp [hn, ht, hf, hq, hm, hd0, hgrab]
        | negSucc m =>
          obtain ⟨d0, ds, v0, hsplit, hd0, hgrab⟩ := parse_natDigits (m + 1) rest hrest
          rw [strP, List.cons_append, parseM_val_unfold]
          simp only [if_neg (by decide : ¬('-' : Char) = 'n'),
            if_neg (by decide : ¬('-' : Char) = 't'),
            if_neg (by decide : ¬('-' : Char) = 'f'),
            if_neg (by decide : ¬('-' : Char) = '"'), if_pos rfl]
          rw [hsplit]
          simp [hd0, hgrab, Int.negSucc_eq]
      | jstr s =>
        rw [strP]
        simp only [List.cons_append, List.append_assoc, List.singleton_append]
        rw [parseM_val_unfold]
        simp only [if_neg (by decide : ¬('"' : Char) = 'n'),
          if_neg (by decide : ¬('"' : Char) = 't'),
          if_neg (by decide : ¬('"' : Char) = 'f'), if_pos rfl]
        rw [parseStr_escJ']
        simp
      | jarr xs =>
        cases xs with
        | nil =>
          rw [strP, strP]
          show parseM (fuel + 1) PMode.mval ('[' :: ']' :: rest) = _
          rw [parseM_val_unfold]
          rfl
        | cons x tl =>
          rw [strP]
          rw [jmP] at hjm
          simp only [List.cons_append, List.append_assoc, List.singleton_append]
          rw [parseM_val_unfold]
          simp only [if_neg (by decide : ¬('[' : Char) = 'n'),
            if_neg (by decide : ¬('[' : Char) = 't'),
            if_neg (by decide : ¬('[' : Char) = 'f'),
            if_neg (by decide : ¬('[' : Char) = '"'),
            if_neg (by decide : ¬('[' : Char) = '-'),
            (by decide : parseDigit '[' = none), if_pos rfl]
          obtain ⟨c, cs, hc, hne, _⟩ := paHead x tl
          rw [hc, List.cons_append]
          have harm := ihe x tl rest (by omega)
          rw [hc, List.cons_append] at harm
          show (if c = ']' then some (PRes.rv (JsonVal.jarr []), cs ++ ']' :: rest)
            else
              match parseM fuel PMode.melems (c :: (cs ++ ']' :: rest)) with
              | some (PRes.ra xs2, rs2) => some (PRes.rv (JsonVal.jarr xs2), rs2)
              | _ => none) = _
          rw [if_neg (by simp [hne]), harm]
      | jobj fs =>
        cases fs with
        | nil =>
          rw [strP, strP]
          show parseM (fuel + 1) PMode.mval ('\x7b' :: '\x7d' :: rest) = _
          rw [parseM_val_unfold]
          rfl
        | cons f tl =>
          obtain ⟨k, v2⟩ := f
          rw [strP]
          rw [jmP] at hjm
          simp only [List.cons_append, List.append_assoc, List.singleton_append]
          rw [parseM_val_unfold]
          simp only [if_neg (by decide : ¬('\x7b' : Char) = 'n'),
            if_neg (by decide : ¬('\x7b' : Char) = 't'),
            if_neg (by decide : ¬('\x7b' : Char) = 'f'),
            if_neg (by decide : ¬('\x7b' : Char) = '"'),
            if_neg (by decide : ¬('\x7b' : Char) = '-'),
            (by decide : parseDigit '\x7b' = none),
            if_neg (by decide : ¬('\x7b' : Char) = '['), if_pos rfl]
          have hpo : ∃ c cs, strP (JPack.po ((k, v2) :: tl)) = c :: cs ∧ (c = '\x7d') = False := by
            cases tl with
            | nil =>
              exact ⟨'"', escJ k ++ '"' :: ':' :: strP (JPack.pv v2), by rw [strP], by decide⟩
            | cons f2 tl2 =>
              exact ⟨'"', (escJ k ++ '"' :: ':' :: strP (JPack.pv v2)) ++
                ',' :: strP (JPack.po (f2 :: tl2)), by rw [strP]; rfl, by decide⟩
          obtain ⟨c, cs, hc, hne⟩ := hpo
          rw [hc, List.cons_append]
          have harm := ihf k v2 tl rest (by omega)
          rw [hc, List.cons_append] at harm
          show (if c = '\x7d' then some (PRes.rv (JsonVal.jobj []), cs ++ '\x7d' :: rest)
            else
              match parseM fuel PMode.mfields (c :: (cs ++ '\x7d' :: rest)) with
              | some (PRes.ro fs2, rs2) => some (PRes.rv (JsonVal.jobj fs2), rs2)
              | _ => none) = _
          rw [if_neg (by simp [hne]), harm]
    · intro x tl rest hjm
      cases tl with
      | nil =>
        rw [jmP, jmP] at hjm
        rw [strP, parseM_elems_unfold,
          ihv x (']' :: rest) (by omega) (notDigitStart_cons _ (by decide))]
        rfl
      | cons y tl2 =>
        rw [jmP] at hjm
        have hy1 := jm_pos x
        rw [strP]
        simp only [List.append_assoc, List.cons_append]
        rw [parseM_elems_unfold,
          ihv x (',' :: (strP (JPack.pa (y :: tl2)) ++ ']' :: rest)) (by omega)
            (notDigitStart_cons _ (by decide))]
        show (if (',' : Char) = ',' then
            match parseM fuel PMode.melems (strP (JPack.pa (y :: tl2)) ++ ']' :: rest) with
            | some (PRes.ra xs, r2) => some (PRes.ra (x :: xs), r2)
            | _ => none
          else if (',' : Char) = ']' then
            some (PRes.ra [x], strP (JPack.pa (y :: tl2)) ++ ']' :: rest)
          else none) = _
        rw [if_pos rfl, ihe y tl2 rest (by omega)]
    · intro k v tl rest hjm
      cases tl with
      | nil =>
        rw [jmP, jmP] at hjm
        rw [strP]
        simp only [List.cons_append, List.append_assoc, List.singleton_append]
        rw [parseM_fields_unfold, if_pos rfl, parseStr_escJ']
        show (match (':' :: (strP (JPack.pv v) ++ '\x7d' :: rest) : List Char) with
          | [] => none
          | col :: rs2 =>
            if col = ':' then
              match parseM fuel PMode.mval rs2 with
              | some (PRes.rv v2, rs3) =>
                match rs3 with
                | [] => none
                | r :: rs4 =>
                  if r = ',' then
                    match parseM fuel PMode.mfields rs4 with
                    | some (PRes.ro fs, r2) => some (PRes.ro ((k, v2) :: fs), r2)
                    | _ => none
                  else if r = '\x7d' then some (PRes.ro [(k, v2)], rs4)
                  else none
              | _ => none
            else none) = _
        show (if (':' : Char) = ':' then
            match parseM fuel PMode.mval (strP (JPack.pv v) ++ '\x7d' :: rest) with
            | some (PRes.rv v2, rs3) =>
              match rs3 with
              | [] => none
              | r :: rs4 =>
                if r = ',' then
                  match parseM fuel PMode.mfields rs4 with
                  | some (PRes.ro fs, r2) => some (PRes.ro ((k, v2) :: fs), r2)
                  | _ => none
                else if r = '\x7d' then some (PRes.ro [(k, v2)], rs4)
                else none
            | _ => none
          else none) = _
        rw [if_pos rfl, ihv v ('\x7d' :: rest) (by omega) (notDigitStart_cons _ (by decide))]
        rfl
      | cons f2 tl2 =>
        obtain ⟨k2, v2⟩ := f2
        rw [jmP] at hjm
        have hv1 := jm_pos v
        rw [strP]
        simp only [List.cons_append, List.append_assoc, List.singleton_append]
        rw [parseM_fields_unfold, if_pos rfl, parseStr_escJ']
        show (if (':' : Char) = ':' then
            match parseM fuel PMode.mval (strP (JPack.pv v) ++
                ',' :: (strP (JPack.po ((k2, v2) :: tl2)) ++ '\x7d' :: rest)) with
            | some (PRes.rv v3, rs3) =>
              match rs3 with
              | [] => none
              | r :: rs4 =>
                if r = ',' then
                  match parseM fuel PMode.mfields rs4 with
                  | some (PRes.ro fs, r2) => some (PRes.ro ((k, v3) :: fs), r2)
                  | _ => none
                else if r = '\x7d' then some (PRes.ro [(k, v3)], rs4)
                else none
            | _ => none
          else none) = _
        rw [if_pos rfl,
          ihv v (',' :: (strP (JPack.po ((k2, v2) :: tl2)) ++ '\x7d' :: rest)) (by omega)
            (notDigitStart_cons _ (by decide))]
        show (if (',' : Char) = ',' then
            match parseM fuel PMode.mfields (strP (JPack.po ((k2, v2) :: tl2)) ++ '\x7d' :: rest) with
            | some (PRes.ro fs, r2) => some (PRes.ro ((k, v) :: fs), r2)
            | _ => none
          else if (',' : Char) = '\x7d' then
            some (PRes.ro [(k, v)], strP (JPack.po ((k2, v2) :: tl2)) ++ '\x7d' :: rest)
          else none) = _
        rw [if_pos rfl, ihf k2 v2 tl2 rest (by omega)]

theorem jm_le_strLen : ∀ (n : Nat) (p : JPack), sizeOf p ≤ n →
    jmP p ≤ (strP p).length + (match p with | JPack.pv _ => 0 | _ => 1) := by
  intro n
  induction n using Nat.strong_induction_on with
  | _ n ih =>
    intro p hp
    match p with
    | JPack.pv v =>
      cases v with
      | jnull => rw [jmP, strP]; simp [toCl]
      | jbool b => cases b <;> (rw [jmP, strP]; simp [toCl])
      | jnum m =>
        cases m with
        | ofNat m2 =>
          rw [jmP, strP]
          have := natDigitsAux_ne_nil (m2 + 1) m2 (by omega)
          have : 0 < (natDigits m2).length := by
            rw [natDigits]
            cases h : natDigitsAux (m2 + 1) m2 with
            | nil => exact absurd h this
            | cons a b => simp
          omega
        | negSucc m2 => rw [jmP, strP]; simp
      | jstr s => rw [jmP, strP]; simp
      | jarr xs =>
        have hsz : sizeOf (JPack.pa xs) < n := by
          have h1 : sizeOf (JPack.pv (JsonVal.jarr xs)) = 2 + sizeOf xs := by simp; omega
          have h2 : sizeOf (JPack.pa xs) = 1 + sizeOf xs := by simp
          omega
        have := ih (sizeOf (JPack.pa xs)) hsz (JPack.pa xs) (le_refl _)
        rw [jmP, strP]
        simp only [List.length_cons, List.length_append, List.length_singleton] at *
        omega
      | jobj fs =>
        have hsz : sizeOf (JPack.po fs) < n := by
          have h1 : sizeOf (JPack.pv (JsonVal.jobj fs)) = 2 + sizeOf fs := by simp; omega
          have h2 : sizeOf (JPack.po fs) = 1 + sizeOf fs := by simp
          omega
        have := ih (sizeOf (JPack.po fs)) hsz (JPack.po fs) (le_refl _)
        rw [jmP, strP]
        simp only [List.length_cons, List.length_append, List.length_singleton] at *
        omega
    | JPack.pa [] => rw [jmP]; omega
    | JPack.pa (x :: xs) =>
      have hx : sizeOf (JPack.pv x) < n := by
        have : sizeOf (JPack.pa (x :: xs)) = 2 + sizeOf x + sizeOf xs := by simp; omega
        have h2 : sizeOf (JPack.pv x) = 1 + sizeOf x := by simp
        omega
      have hxs : sizeOf (JPack.pa xs) < n := by
        have : sizeOf (JPack.pa (x :: xs)) = 2 + sizeOf x + sizeOf xs := by simp; omega
        have h2 : sizeOf (JPack.pa xs) = 1 + sizeOf xs := by simp
        have h3 : 0 < sizeOf x := by cases x <;> simp
        omega
      have ihx := ih _ hx (JPack.pv x) (le_refl _)
      have ihxs := ih _ hxs (JPack.pa xs) (le_refl _)
      rw [jmP]
      cases xs with
      | nil =>
        rw [strP]
        simp only [jmP] at *
        omega
      | cons y ys =>
        rw [strP]
        simp only [List.length_append, List.length_cons] at *
        omega
    | JPack.po [] => rw [jmP]; omega
    | JPack.po ((k, v) :: fs) =>
      have hx : sizeOf (JPack.pv v) < n := by
        have : sizeOf (JPack.po ((k, v) :: fs)) = 3 + sizeOf k + sizeOf v + sizeOf fs := by
          simp; omega
        have h2 : sizeOf (JPack.pv v) = 1 + sizeOf v := by simp
        have h3 : 0 < sizeOf k := by cases k <;> simp
        omega
      have hxs : sizeOf (JPack.po fs) < n := by
        have : sizeOf (JPack.po ((k, v) :: fs)) = 3 + sizeOf k + sizeOf v + sizeOf fs := by
          simp; omega
        have h2 : sizeOf (JPack.po fs) = 1 + sizeOf fs := by simp
        have h3 : 0 < sizeOf v := by cases v <;> simp
        omega
      have ihx := ih _ hx (JPack.pv v) (le_refl _)
      have ihxs := ih _ hxs (JPack.po fs) (le_refl _)
      rw [jmP]
      cases fs with
      | nil =>
        rw [strP]
        simp only [jmP, List.length_cons, List.length_append] at *
        omega
      | cons f2 fs2 =>
        rw [strP]
        simp only [List.length_append, List.length_cons] at *
        omega

theorem parseJson_stringifyJson (v : JsonVal) : parseJson (stringifyJson v) = some v := by
  have hbound : jmP (JPack.pv v) < (strP (JPack.pv v)).length + 1 := by
    have := jm_le_strLen (sizeOf (JPack.pv v)) (JPack.pv v) (le_refl _)
    simp only at this
    omega
  have hrt := (parseM_rt ((strP (JPack.pv v)).length + 1)).1 v [] hbound trivial
  rw [List.append_nil] at hrt
  show (match parseM ((strP (JPack.pv v)).length + 1) PMode.mval (strP (JPack.pv v)) with
    | some (PRes.rv v2, []) => some v2
    | _ => none) = some v
  rw [hrt]

theorem natDigits_ne_nil (n : Nat) : natDigits n ≠ [] := by
  rw [natDigits]
  exact natDigitsAux_ne_nil (n + 1) n (by omega)

theorem stringifyJson_ne_nil (v : JsonVal) : stringifyJson v ≠ [] := by
  rw [stringifyJson]
  cases v with
  | jnull => rw [strP]; simp [toCl]
  | jbool b => cases b <;> (rw [strP]; simp [toCl])
  | jnum m =>
    cases m with
    | ofNat m2 => rw [strP]; exact natDigits_ne_nil m2
    | negSucc m2 => rw [strP]; simp
  | jstr s => rw [strP]; simp
  | jarr xs => rw [strP]; simp
  | jobj fs => rw [strP]; simp

theorem lookupS_insertS_self (data : List (List Char × List Char)) (k v : List Char) :
    lookupS (insertS data k v) k = some v := by
  induction data with
  | nil => simp [insertS, lookupS]
  | cons p tl ih =>
    obtain ⟨k2, w⟩ := p
    by_cases h : k2 = k
    · subst h; simp [insertS, lookupS]
    · simp [insertS, lookupS, h, ih]

theorem getLast_local (st : BrowserState) (s : List Char)
    (hfail : st.localS.fails = false)
    (hlook : lookupS st.localS.data storageKey = some s) (hne : s ≠ []) :
    getLastWorkflowResponse st = parseJson s := by
  obtain ⟨c, cs, rfl⟩ : ∃ c cs, s = c :: cs := by
    cases s with
    | nil => exact absurd rfl hne
    | cons c cs => exact ⟨c, cs, rfl⟩
  rw [getLastWorkflowResponse, rawRead]
  simp [getItemE, hfail, hlook, rawFalsy]

theorem getLast_session (st : BrowserState) (s : List Char)
    (hloc : st.localS.fails = true ∨ lookupS st.localS.data storageKey = none ∨
      lookupS st.localS.data storageKey = some [])
    (hfail : st.sessionS.fails = false)
    (hlook : lookupS st.sessionS.data storageKey = some s) (hne : s ≠ []) :
    getLastWorkflowResponse st = parseJson s := by
  obtain ⟨c, cs, rfl⟩ : ∃ c cs, s = c :: cs := by
    cases s with
    | nil => exact absurd rfl hne
    | cons c cs => exact ⟨c, cs, rfl⟩
  rw [getLastWorkflowResponse, rawRead]
  have hr1 : (match getItemE st.localS storageKey with
      | Except.error _ => none
      | Except.ok v => v) = none ∨
      (match getItemE st.localS storageKey with
      | Except.error _ => none
      | Except.ok v => v) = some ([] : List Char) := by
    rcases hloc with h | h | h
    · left; simp [getItemE, h]
    · by_cases hf : st.localS.fails
      · left; simp [getItemE, hf]
      · left; simp [getItemE, hf, h]
    · by_cases hf : st.localS.fails
      · left; simp [getItemE, hf]
      · right; simp [getItemE, hf, h]
  rcases hr1 with h | h <;>
    (rw [h]; simp [rawFalsy, getItemE, hfail, hlook])

theorem getLast_bothFail (st : BrowserState)
    (h1 : st.localS.fails = true) (h2 : st.sessionS.fails = true) :
    getLastWorkflowResponse st = none := by
  rw [getLastWorkflowResponse, rawRead]
  simp [getItemE, h1, h2, rawFalsy]

theorem getLast_noValue (st : BrowserState)
    (h1 : lookupS st.localS.data storageKey = none ∨
      lookupS st.localS.data storageKey = some [])
    (h2 : lookupS st.sessionS.data storageKey = none ∨
      lookupS st.sessionS.data storageKey = some []) :
    getLastWorkflowResponse st = none := by
  rw [getLastWorkflowResponse, rawRead]
  by_cases hf1 : st.localS.fails <;> by_cases hf2 : st.sessionS.fails <;>
    rcases h1 with h1 | h1 <;> rcases h2 with h2 | h2 <;>
    simp [getItemE, hf1, hf2, h1, h2, rawFalsy]

theorem save_local (st : BrowserState) (d : JsonVal) (hfail : st.localS.fails = false) :
    (saveLastWorkflowResponse st d).localS.data =
        insertS st.localS.data storageKey (stringifyJson d)
      ∧ (saveLastWorkflowResponse st d).localS.fails = false
      ∧ (saveLastWorkflowResponse st d).sessionS = st.sessionS := by
  rw [saveLastWorkflowResponse]
  simp [setItemE, hfail]

theorem save_session (st : BrowserState) (d : JsonVal)
    (hfail : st.localS.fails = true) (hfail2 : st.sessionS.fails = false) :
    (saveLastWorkflowResponse st d).sessionS.data =
        insertS st.sessionS.data storageKey (stringifyJson d)
      ∧ (saveLastWorkflowResponse st d).sessionS.fails = false
      ∧ (saveLastWorkflowResponse st d).localS = st.localS := by
  rw [saveLastWorkflowResponse]
  simp [setItemE, hfail, hfail2]

theorem save_roundtrip (st : BrowserState) (d : JsonVal)
    (h : st.localS.fails = false ∨ st.sessionS.fails = false) :
    getLastWorkflowResponse (saveLastWorkflowResponse st d) = some d := by
  by_cases hf : st.localS.fails = false
  · obtain ⟨hd, hfl, _⟩ := save_local st d hf
    rw [getLast_local _ (stringifyJson d) hfl
      (by rw [hd]; exact lookupS_insertS_self _ _ _) (stringifyJson_ne_nil d)]
    exact parseJson_stringifyJson d
  · have hf1 : st.localS.fails = true := by simpa using hf
    have hf2 : st.sessionS.fails = false := by
      rcases h with h | h
      · exact absurd h hf
      · exact h
    obtain ⟨hd, hfl, hloc⟩ := save_session st d hf1 hf2
    rw [getLast_session _ (stringifyJson d)
      (Or.inl (by rw [hloc]; exact hf1)) hfl
      (by rw [hd]; exact lookupS_insertS_self _ _ _) (stringifyJson_ne_nil d)]
    exact parseJson_stringifyJson d

theorem replaceAllC_append (c : Char) (rep : List Char) : ∀ (a b : List Char),
    replaceAllC c rep (a ++ b) = replaceAllC c rep a ++ replaceAllC c rep b := by
  intro a
  induction a with
  | nil => intro b; simp [replaceAllC]
  | cons x xs ih => intro b; simp [replaceAllC, ih]

theorem escapeHtmlL_append (a b : List Char) :
    escapeHtmlL (a ++ b) = escapeHtmlL a ++ escapeHtmlL b := by
  simp [escapeHtmlL, replaceAllC_append]

theorem escapeHtmlL_single (x : Char) : escapeHtmlL [x] = escTable x := by
  by_cases h1 : x = '&'
  · subst h1; rfl
  · by_cases h2 : x = '<'
    · subst h2; rfl
    · by_cases h3 : x = '>'
      · subst h3; rfl
      · by_cases h4 : x = '"'
        · subst h4; rfl
        · by_cases h5 : x = '\''
          · subst h5; rfl
          · rw [escTable, if_neg h1, if_neg h2, if_neg h3, if_neg h4, if_neg h5]
            simp [escapeHtmlL, replaceAllC, h1, h2, h3, h4, h5]

theorem escapeHtmlL_cons (x : Char) (xs : List Char) :
    escapeHtmlL (x :: xs) = escTable x ++ escapeHtmlL xs := by
  have : (x :: xs) = [x] ++ xs := rfl
  rw [this, escapeHtmlL_append, escapeHtmlL_single]

theorem memC_append (c : Char) : ∀ (a b : List Char),
    memC c (a ++ b) = (memC c a || memC c b) := by
  intro a
  induction a with
  | nil => intro b; simp [memC]
  | cons x xs ih =>
    intro b
    by_cases h : x = c <;> simp [memC, h, ih]

theorem memC_escTable_lt (x : Char) : memC '<' (escTable x) = false := by
  by_cases h1 : x = '&'; · subst h1; decide
  by_cases h2 : x = '<'; · subst h2; decide
  by_cases h3 : x = '>'; · subst h3; decide
  by_cases h4 : x = '"'; · subst h4; decide
  by_cases h5 : x = '\''; · subst h5; decide
  rw [escTable, if_neg h1, if_neg h2, if_neg h3, if_neg h4, if_neg h5]
  simp [memC, h2]

theorem memC_escTable_gt (x : Char) : memC '>' (escTable x) = false := by
  by_cases h1 : x = '&'; · subst h1; decide
  by_cases h2 : x = '<'; · subst h2; decide
  by_cases h3 : x = '>'; · subst h3; decide
  by_cases h4 : x = '"'; · subst h4; decide
  by_cases h5 : x = '\''; · subst h5; decide
  rw [escTable, if_neg h1, if_neg h2, if_neg h3, if_neg h4, if_neg h5]
  simp [memC, h3]

theorem memC_escTable_quot (x : Char) : memC '"' (escTable x) = false := by
  by_cases h1 : x = '&'; · subst h1; decide
  by_cases h2 : x = '<'; · subst h2; decide
  by_cases h3 : x = '>'; · subst h3; decide
  by_cases h4 : x = '"'; · subst h4; decide
  by_cases h5 : x = '\''; · subst h5; decide
  rw [escTable, if_neg h1, if_neg h2, if_neg h3, if_neg h4, if_neg h5]
  simp [memC, h4]

theorem memC_escTable_apos (x : Char) : memC '\'' (escTable x) = false := by
  by_cases h1 : x = '&'; · subst h1; decide
  by_cases h2 : x = '<'; · subst h2; decide
  by_cases h3 : x = '>'; · subst h3; decide
  by_cases h4 : x = '"'; · subst h4; decide
  by_cases h5 : x = '\''; · subst h5; decide
  rw [escTable, if_neg h1, if_neg h2, if_neg h3, if_neg h4, if_neg h5]
  simp [memC, h5]

theorem startsWithC_self : ∀ (p l : List Char), startsWithC p (p ++ l) = true := by
  intro p
  induction p with
  | nil => intro l; rfl
  | cons x xs ih => intro l; simp [startsWithC, ih]

theorem ampOk_escTable (x : Char) (rest : List Char) (h : ampOk rest = true) :
    ampOk (escTable x ++ rest) = true := by
  by_cases h1 : x = '&'
  · subst h1
    show ampOk ('&' :: (toCl "amp;" ++ rest)) = true
    rw [ampOk]
    simp only [if_pos rfl, entityAt, startsWithC_self, Bool.true_or, Bool.true_and]
    simp [ampOk, h]
  by_cases h2 : x = '<'
  · subst h2
    show ampOk ('&' :: (toCl "lt;" ++ rest)) = true
    rw [ampOk]
    simp only [if_pos rfl, entityAt, startsWithC_self, Bool.true_or, Bool.or_true, Bool.true_and]
    simp [ampOk, h]
  by_cases h3 : x = '>'
  · subst h3
    show ampOk ('&' :: (toCl "gt;" ++ rest)) = true
    rw [ampOk]
    simp only [if_pos rfl, entityAt, startsWithC_self, Bool.true_or, Bool.or_true, Bool.true_and]
    simp [ampOk, h]
  by_cases h4 : x = '"'
  · subst h4
    show ampOk ('&' :: (toCl "quot;" ++ rest)) = true
    rw [ampOk]
    simp only [if_pos rfl, entityAt, startsWithC_self, Bool.true_or, Bool.or_true, Bool.true_and]
    simp [ampOk, h]
  by_cases h5 : x = '\''
  · subst h5
    show ampOk ('&' :: (toCl "#39;" ++ rest)) = true
    rw [ampOk]
    simp only [if_pos rfl, entityAt, startsWithC_self, Bool.true_or, Bool.or_true, Bool.true_and]
    simp [ampOk, h]
  rw [escTable, if_neg h1, if_neg h2, if_neg h3, if_neg h4, if_neg h5]
  show ampOk (x :: rest) = true
  rw [ampOk, if_neg h1]
  simp [h]

theorem escapeHtmlL_safe : ∀ (s : List Char),
    memC '<' (escapeHtmlL s) = false ∧ memC '>' (escapeHtmlL s) = false ∧
    memC '"' (escapeHtmlL s) = false ∧ memC '\'' (escapeHtmlL s) = false ∧
    ampOk (escapeHtmlL s) = true := by
  intro s
  induction s with
  | nil => exact ⟨rfl, rfl, rfl, rfl, rfl⟩
  | cons x xs ih =>
    obtain ⟨i1, i2, i3, i4, i5⟩ := ih
    rw [escapeHtmlL_cons]
    refine ⟨?_, ?_, ?_, ?_, ?_⟩
    · rw [memC_append, i1, memC_escTable_lt]; rfl
    · rw [memC_append, i2, memC_escTable_gt]; rfl
    · rw [memC_append, i3, memC_escTable_quot]; rfl
    · rw [memC_append, i4, memC_escTable_apos]; rfl
    · exact ampOk_escTable x _ i5

theorem decomposeRequest_reject (input title gran : List Char) (h : jsTrim input = []) :
    decomposeRequest input title gran = none := by
  simp [decomposeRequest, h]

theorem decomposeRequest_accept (input title gran : List Char) (h : jsTrim input ≠ []) :
    decomposeRequest input title gran =
      some { text := jsTrim input,
             title := if jsTrim title = [] then none else some (jsTrim title),
             granularity := gran } := by
  simp only [decomposeRequest, List.isEmpty_iff, if_neg h]

theorem decomposeRun_reject (st : BrowserState) (input title gran : List Char)
    (resp : DecomposeBody → Option JsonVal) (h : jsTrim input = []) :
    decomposeRun st input title gran resp = (st, none) := by
  rw [decomposeRun, decomposeRequest_reject input title gran h]

theorem decomposeRun_success (st : BrowserState) (input title gran : List Char)
    (resp : DecomposeBody → Option JsonVal) (body : DecomposeBody) (data : JsonVal)
    (h1 : decomposeRequest input title gran = some body) (h2 : resp body = some data) :
    decomposeRun st input title gran resp = (saveLastWorkflowResponse st data, some data) := by
  rw [decomposeRun, h1]
  show (match resp body with
    | none => (st, none)
    | some data => (saveLastWorkflowResponse st data, some data)) = _
  rw [h2]

theorem agentic_request_eq (st : BrowserState) (resp w : JsonVal)
    (h1 : getLastWorkflowResponse st = some resp) (h2 : jsTruthy resp = true)
    (h3 : getField resp (toCl "workflow") = some w) (h4 : jsTruthy w = true) :
    generateAgenticRequest st = some (JsonVal.jobj [(toCl "workflow", w)]) := by
  rw [generateAgenticRequest, h1]
  simp [h2, h3, h4]

namespace Wf

theorem dedupTasks_nodup : ∀ (seen : List String) (ts : List Task),
    IdsNodup (dedupTasks seen ts).1 ∧ ∀ x ∈ taskIds (dedupTasks seen ts).1, x ∉ seen := by
  intro seen ts
  induction ts generalizing seen with
  | nil => exact ⟨List.nodup_nil, by simp [dedupTasks, taskIds]⟩
  | cons t ts ih =>
    by_cases h : t.id ∈ seen
    · simpa [dedupTasks, h] using ih seen
    · obtain ⟨ih1, ih2⟩ := ih (t.id :: seen)
      refine ⟨?_, ?_⟩
      · simp only [IdsNodup, dedupTasks, if_neg h, taskIds, List.map_cons, List.nodup_cons]
        exact ⟨fun hmem => ih2 t.id hmem (by simp), ih1⟩
      · intro x hx
        simp only [dedupTasks, if_neg h, taskIds, List.map_cons, List.mem_cons] at hx
        rcases hx with rfl | hx
        · exact h
        · exact fun hs => ih2 x hx (by simp [hs])

theorem dedupTasks_id : ∀ (seen : List String) (ts : List Task),
    IdsNodup ts → (∀ x ∈ taskIds ts, x ∉ seen) → dedupTasks seen ts = (ts, []) := by
  intro seen ts
  induction ts generalizing seen with
  | nil => intro _ _; rfl
  | cons t ts ih =>
    intro hnd hseen
    have ht : t.id ∉ seen := hseen t.id (by simp [taskIds])
    simp only [IdsNodup, taskIds, List.map_cons, List.nodup_cons] at hnd
    rw [dedupTasks, if_neg ht, ih (t.id :: seen) hnd.2]
    intro x hx
    simp only [List.mem_cons]
    push_neg
    exact ⟨fun heq => hnd.1 (heq ▸ hx), hseen x (by simp [taskIds] at hx ⊢; exact Or.inr hx)⟩

theorem dedupTasks_noissue : ∀ (seen : List String) (ts : List Task),
    (dedupTasks seen ts).2 = [] → (dedupTasks seen ts).1 = ts := by
  intro seen ts
  induction ts generalizing seen with
  | nil => intro _; rfl
  | cons t ts ih =>
    intro h
    by_cases hm : t.id ∈ seen
    · simp [dedupTasks, hm] at h
    · simp only [dedupTasks, if_neg hm] at h ⊢
      rw [ih (t.id :: seen) h]

theorem filter_len_eq {α : Type} (l : List α) (p : α → Bool)
    (h : (l.filter p).length = l.length) : l.filter p = l :=
  List.Sublist.eq_of_length (List.filter_sublist l) h

theorem filter_len_all {α : Type} (l : List α) (p : α → Bool)
    (h : (l.filter p).length = l.length) : ∀ a ∈ l, p a :=
  List.filter_eq_self.mp (filter_len_eq l p h)

theorem stripSelf_ids : ∀ ts : List Task, taskIds (stripSelf ts).1 = taskIds ts := by
  intro ts
  induction ts with
  | nil => rfl
  | cons t ts ih =>
    simp only [stripSelf]
    split
    · simp only [taskIds, List.map_cons] at ih ⊢
      rw [ih]
    · simp only [taskIds, List.map_cons] at ih ⊢
      rw [ih]

theorem stripSelf_noSelf : ∀ ts : List Task, NoSelfDep (stripSelf ts).1 := by
  intro ts
  induction ts with
  | nil => intro t h; simp [stripSelf] at h
  | cons t ts ih =>
    intro t' ht'
    simp only [stripSelf] at ht'
    split at ht'
    · rename_i hlen
      simp only [List.mem_cons] at ht'
      rcases ht' with rfl | ht'
      · intro hmem
        have := filter_len_all _ _ hlen t'.id hmem
        simp at this
      · exact ih t' ht'
    · simp only [List.mem_cons] at ht'
      rcases ht' with rfl | ht'
      · simp
      · exact ih t' ht'

theorem stripSelf_deps : ∀ (ts : List Task), ∀ t' ∈ (stripSelf ts).1,
    ∃ t ∈ ts, t'.id = t.id ∧ ∀ d ∈ t'.depends_on, d ∈ t.depends_on := by
  intro ts
  induction ts with
  | nil => intro t' h; simp [stripSelf] at h
  | cons t ts ih =>
    intro t' ht'
    simp only [stripSelf] at ht'
    split at ht'
    · simp only [List.mem_cons] at ht'
      rcases ht' with rfl | ht'
      · exact ⟨t', by simp, rfl, fun d hd => hd⟩
      · obtain ⟨t2, h2, h3, h4⟩ := ih t' ht'
        exact ⟨t2, by simp [h2], h3, h4⟩
    · simp only [List.mem_cons] at ht'
      rcases ht' with rfl | ht'
      · refine ⟨t, by simp, rfl, fun d hd => ?_⟩
        simp only [List.mem_filter] at hd
        exact hd.1
      · obtain ⟨t2, h2, h3, h4⟩ := ih t' ht'
        exact ⟨t2, by simp [h2], h3, h4⟩

theorem stripSelf_id : ∀ ts : List Task, NoSelfDep ts → stripSelf ts = (ts, []) := by
  intro ts
  induction ts with
  | nil => intro _; rfl
  | cons t ts ih =>
    intro h
    have ht : t.depends_on.filter (fun d => d ≠ t.id) = t.depends_on := by
      apply List.filter_eq_self.mpr
      intro d hd
      have : d ≠ t.id := fun heq => h t (by simp) (heq ▸ hd)
      simp [this]
    simp only [stripSelf]
    rw [if_pos (by rw [ht]), ih (fun x hx => h x (by simp [hx]))]

theorem stripSelf_noissue : ∀ ts : List Task,
    (stripSelf ts).2 = [] → (stripSelf ts).1 = ts := by
  intro ts
  induction ts with
  | nil => intro _; rfl
  | cons t ts ih =>
    intro h
    simp only [stripSelf] at h ⊢
    split at h
    · rename_i hlen
      simp only at h ⊢
      rw [if_pos hlen, ih h]
    · simp at h

theorem stripMissing_ids (ids : List String) : ∀ ts : List Task,
    taskIds (stripMissing ids ts).1 = taskIds ts := by
  intro ts
  induction ts with
  | nil => rfl
  | cons t ts ih =>
    simp only [stripMissing]
    split <;> (simp only [taskIds, List.map_cons] at ih ⊢; rw [ih])

theorem stripMissing_closed (ids : List String) : ∀ ts : List Task,
    ∀ t' ∈ (stripMissing ids ts).1, ∀ d ∈ t'.depends_on, d ∈ ids := by
  intro ts
  induction ts with
  | nil => intro t' h; simp [stripMissing] at h
  | cons t ts ih =>
    intro t' ht'
    simp only [stripMissing] at ht'
    split at ht'
    · rename_i hlen
      simp only [List.mem_cons] at ht'
      rcases ht' with rfl | ht'
      · intro d hd
        have := filter_len_all _ _ hlen d hd
        simpa using this
      · exact ih t' ht'
    · simp only [List.mem_cons] at ht'
      rcases ht' with rfl | ht'
      · intro d hd
        simp only [List.mem_filter] at hd
        simpa using hd.2
      · exact ih t' ht'

theorem stripMissing_deps (ids : List String) : ∀ (ts : List Task),
    ∀ t' ∈ (stripMissing ids ts).1,
    ∃ t ∈ ts, t'.id = t.id ∧ ∀ d ∈ t'.depends_on, d ∈ t.depends_on := by
  intro ts
  induction ts with
  | nil => intro t' h; simp [stripMissing] at h
  | cons t ts ih =>
    intro t' ht'
    simp only [stripMissing] at ht'
    split at ht'
    · simp only [List.mem_cons] at ht'
      rcases ht' with rfl | ht'
      · exact ⟨t', by simp, rfl, fun d hd => hd⟩
      · obtain ⟨t2, h2, h3, h4⟩ := ih t' ht'
        exact ⟨t2, by simp [h2], h3, h4⟩
    · simp only [List.mem_cons] at ht'
      rcases ht' with rfl | ht'
      · refine ⟨t, by simp, rfl, fun d hd => ?_⟩
        simp only [List.mem_filter] at hd
        exact hd.1
      · obtain ⟨t2, h2, h3, h4⟩ := ih t' ht'
        exact ⟨t2, by simp [h2], h3, h4⟩

theorem stripMissing_id (ids : List String) : ∀ ts : List Task,
    (∀ t ∈ ts, ∀ d ∈ t.depends_on, d ∈ ids) → stripMissing ids ts = (ts, []) := by
  intro ts
  induction ts with
  | nil => intro _; rfl
  | cons t ts ih =>
    intro h
    have ht : t.depends_on.filter (fun d => d ∈ ids) = t.depends_on := by
      apply List.filter_eq_self.mpr
      intro d hd
      simpa using h t (by simp) d hd
    simp only [stripMissing]
    rw [if_pos (by rw [ht]), ih (fun x hx => h x (by simp [hx]))]

theorem stripMissing_noissue (ids : List String) : ∀ ts : List Task,
    (stripMissing ids ts).2 = [] → (stripMissing ids ts).1 = ts := by
  intro ts
  induction ts with
  | nil => intro _; rfl
  | cons t ts ih =>
    intro h
    simp only [stripMissing] at h ⊢
    split at h
    · rename_i hlen
      simp only at h ⊢
      rw [if_pos hlen, ih h]
    · simp at h

theorem dedupDeps_nodup : ∀ (seen ds : List String),
    (dedupDeps seen ds).Nodup ∧ ∀ x ∈ dedupDeps seen ds, x ∉ seen := by
  intro seen ds
  induction ds generalizing seen with
  | nil => exact ⟨List.nodup_nil, by simp [dedupDeps]⟩
  | cons d ds ih =>
    by_cases h : d ∈ seen
    · simpa [dedupDeps, h] using ih seen
    · obtain ⟨ih1, ih2⟩ := ih (d :: seen)
      refine ⟨?_, ?_⟩
      · simp only [dedupDeps, if_neg h, List.nodup_cons]
        exact ⟨fun hmem => ih2 d hmem (by simp), ih1⟩
      · intro x hx
        simp only [dedupDeps, if_neg h, List.mem_cons] at hx
        rcases hx with rfl | hx
        · exact h
        · exact fun hs => ih2 x hx (by simp [hs])

theorem dedupDeps_subset : ∀ (seen ds : List String), ∀ x ∈ dedupDeps seen ds, x ∈ ds := by
  intro seen ds
  induction ds generalizing seen with
  | nil => simp [dedupDeps]
  | cons d ds ih =>
    intro x hx
    by_cases h : d ∈ seen
    · simp only [dedupDeps, if_pos h] at hx
      exact List.mem_cons_of_mem d (ih seen x hx)
    · simp only [dedupDeps, if_neg h, List.mem_cons] at hx
      rcases hx with rfl | hx
      · simp
      · exact List.mem_cons_of_mem d (ih (d :: seen) x hx)

theorem dedupDeps_id : ∀ (seen ds : List String), ds.Nodup → (∀ x ∈ ds, x ∉ seen) →
    dedupDeps seen ds = ds := by
  intro seen ds
  induction ds generalizing seen with
  | nil => intro _ _; rfl
  | cons d ds ih =>
    intro hnd hseen
    simp only [List.nodup_cons] at hnd
    rw [dedupDeps, if_neg (hseen d (by simp)), ih (d :: seen) hnd.2]
    intro x hx
    simp only [List.mem_cons]
    push_neg
    exact ⟨fun heq => hnd.1 (heq ▸ hx), hseen x (by simp [hx])⟩

theorem stripDupDeps_ids : ∀ ts : List Task, taskIds (stripDupDeps ts).1 = taskIds ts := by
  intro ts
  induction ts with
  | nil => rfl
  | cons t ts ih =>
    simp only [stripDupDeps]
    split <;> (simp only [taskIds, List.map_cons] at ih ⊢; rw [ih])

theorem dedupDeps_sublist : ∀ (seen ds : List String), (dedupDeps seen ds).Sublist ds := by
  intro seen ds
  induction ds generalizing seen with
  | nil => simp [dedupDeps]
  | cons d ds ih =>
    by_cases h : d ∈ seen
    · simp only [dedupDeps, if_pos h]
      exact List.Sublist.cons d (ih seen)
    · simp only [dedupDeps, if_neg h]
      exact List.Sublist.cons₂ d (ih (d :: seen))

theorem stripDupDeps_nodup : ∀ ts : List Task, DepsNodup (stripDupDeps ts).1 := by
  intro ts
  induction ts with
  | nil => intro t h; simp [stripDupDeps] at h
  | cons t ts ih =>
    intro t' ht'
    simp only [stripDupDeps] at ht'
    split at ht'
    · rename_i hlen
      simp only [List.mem_cons] at ht'
      rcases ht' with rfl | ht'
      · have heq : dedupDeps [] t'.depends_on = t'.depends_on :=
          List.Sublist.eq_of_length (dedupDeps_sublist [] _) hlen
        exact heq ▸ (dedupDeps_nodup [] t'.depends_on).1
      · exact ih t' ht'
    · simp only [List.mem_cons] at ht'
      rcases ht' with rfl | ht'
      · exact (dedupDeps_nodup [] _).1
      · exact ih t' ht'

theorem stripDupDeps_deps : ∀ (ts : List Task), ∀ t' ∈ (stripDupDeps ts).1,
    ∃ t ∈ ts, t'.id = t.id ∧ ∀ d ∈ t'.depends_on, d ∈ t.depends_on := by
  intro ts
  induction ts with
  | nil => intro t' h; simp [stripDupDeps] at h
  | cons t ts ih =>
    intro t' ht'
    simp only [stripDupDeps] at ht'
    split at ht'
    · simp only [List.mem_cons] at ht'
      rcases ht' with rfl | ht'
      · exact ⟨t', by simp, rfl, fun d hd => hd⟩
      · obtain ⟨t2, h2, h3, h4⟩ := ih t' ht'
        exact ⟨t2, by simp [h2], h3, h4⟩
    · simp only [List.mem_cons] at ht'
      rcases ht' with rfl | ht'
      · exact ⟨t, by simp, rfl, fun d hd => dedupDeps_subset [] _ d hd⟩
      · obtain ⟨t2, h2, h3, h4⟩ := ih t' ht'
        exact ⟨t2, by simp [h2], h3, h4⟩

theorem stripDupDeps_id : ∀ ts : List Task, DepsNodup ts → stripDupDeps ts = (ts, []) := by
  intro ts
  induction ts with
  | nil => intro _; rfl
  | cons t ts ih =>
    intro h
    have ht : dedupDeps [] t.depends_on = t.depends_on :=
      dedupDeps_id [] t.depends_on (h t (by simp)) (by simp)
    simp only [stripDupDeps]
    rw [if_pos (by rw [ht]), ih (fun x hx => h x (by simp [hx]))]

theorem stripDupDeps_noissue : ∀ ts : List Task,
    (stripDupDeps ts).2 = [] → (stripDupDeps ts).1 = ts := by
  intro ts
  induction ts with
  | nil => intro _; rfl
  | cons t ts ih =>
    intro h
    simp only [stripDupDeps] at h ⊢
    split at h
    · rename_i hlen
      simp only at h ⊢
      rw [if_pos hlen, ih h]
    · simp at h

theorem depsOf_closed {ts : List Task} (P2 : DepsClosed ts) :
    ∀ u v, v ∈ depsOf ts u → v ∈ taskIds ts := by
  intro u v hv
  rw [depsOf] at hv
  cases hfind : ts.find? (fun t => t.id = u) with
  | none => rw [hfind] at hv; simp at hv
  | some t =>
    rw [hfind] at hv
    exact P2 t (List.mem_of_find?_eq_some hfind) v hv

theorem depsOf_eq {ts : List Task} (P1 : IdsNodup ts) {t : Task} (ht : t ∈ ts) :
    depsOf ts t.id = t.depends_on := by
  induction ts with
  | nil => simp at ht
  | cons t2 ts ih =>
    simp only [IdsNodup, taskIds, List.map_cons, List.nodup_cons] at P1
    rcases List.mem_cons.mp ht with rfl | ht2
    · rw [depsOf]
      simp [List.find?_cons_of_pos]
    · rw [depsOf, List.find?_cons_of_neg, ← depsOf]
      · exact ih P1.2 ht2
      · simp only [decide_eq_true_eq]
        intro heq
        exact P1.1 (heq ▸ List.mem_map_of_mem Task.id ht2)

theorem depsOf_rel {ts : List Task} {u v : String} (h : v ∈ depsOf ts u) :
    ∃ t ∈ ts, t.id = u ∧ v ∈ t.depends_on := by
  rw [depsOf] at h
  cases hfind : ts.find? (fun t => t.id = u) with
  | none => rw [hfind] at h; simp at h
  | some t =>
    rw [hfind] at h
    refine ⟨t, List.mem_of_find?_eq_some hfind, ?_, h⟩
    have := List.find?_some hfind
    simpa using this

theorem StackOk_mono {ts : List Task} {cut cut' : List (String × String)}
    {black black' above above' : List String}
    (hc : ∀ e ∈ cut, e ∈ cut') (hb : ∀ x ∈ black, x ∈ black')
    (ha : ∀ x ∈ above, x ∈ above') :
    ∀ fs, StackOk ts cut black above fs → StackOk ts cut' black' above' fs := by
  intro fs
  induction fs generalizing above above' with
  | nil => intro _; trivial
  | cons f rest ih =>
    obtain ⟨u, pend⟩ := f
    intro h
    obtain ⟨⟨hu, pre, hpre, hall⟩, hrest⟩ := h
    refine ⟨⟨hu, pre, hpre, fun v hv => ?_⟩, ih (fun x hx => ?_) hrest⟩
    · rcases hall v hv with h | h | h
      · exact Or.inl (hc _ h)
      · exact Or.inr (Or.inl (hb _ h))
      · exact Or.inr (Or.inr (ha _ h))
    · rcases List.mem_cons.mp hx with rfl | hx
      · simp
      · simp [ha x hx]

theorem StackOk_popAbove {ts : List Task} {cut : List (String × String)}
    {black : List String} {a : String} :
    ∀ (above : List String) (fs : List (String × List String)),
    StackOk ts cut black (a :: above) fs → StackOk ts cut (black ++ [a]) above fs := by
  intro above fs
  induction fs generalizing above with
  | nil => intro _; trivial
  | cons f rest ih =>
    obtain ⟨u, pend⟩ := f
    intro h
    obtain ⟨⟨hu, pre, hpre, hall⟩, hrest⟩ := h
    refine ⟨⟨hu, pre, hpre, fun v hv => ?_⟩, ?_⟩
    · rcases hall v hv with h | h | h
      · exact Or.inl h
      · exact Or.inr (Or.inl (by simp [h]))
      · rcases List.mem_cons.mp h with rfl | h
        · exact Or.inr (Or.inl (by simp))
        · exact Or.inr (Or.inr h)
    · have : StackOk ts cut black (a :: u :: above) rest := by
        apply StackOk_mono (fun e he => he) (fun x hx => hx) _ rest hrest
        intro x hx
        rcases List.mem_cons.mp hx with rfl | hx
        · simp
        · rcases List.mem_cons.mp hx with rfl | hx
          · simp
          · simp [hx]
      exact ih (u :: above) this

theorem mstep_eq_done (ts : List Task) (grey black : List String)
    (cut : List (String × String)) :
    mstep ts ⟨[], [], grey, black, cut⟩ = ⟨[], [], grey, black, cut⟩ := rfl

theorem mstep_eq_rootskip (ts : List Task) (r : String) (rs grey black : List String)
    (cut : List (String × String)) (h : r ∈ grey ∨ r ∈ black) :
    mstep ts ⟨r :: rs, [], grey, black, cut⟩ = ⟨rs, [], grey, black, cut⟩ := by
  simp [mstep, h]

theorem mstep_eq_rootpush (ts : List Task) (r : String) (rs grey black : List String)
    (cut : List (String × String)) (h : ¬(r ∈ grey ∨ r ∈ black)) :
    mstep ts ⟨r :: rs, [], grey, black, cut⟩ =
      ⟨rs, [(r, depsOf ts r)], r :: grey, black, cut⟩ := by
  simp only [mstep]
  rw [if_neg h]

theorem mstep_eq_pop (ts : List Task) (roots : List String) (u : String)
    (rest : List (String × List String)) (grey black : List String)
    (cut : List (String × String)) :
    mstep ts ⟨roots, (u, []) :: rest, grey, black, cut⟩ =
      ⟨roots, rest, grey.tail, black ++ [u], cut⟩ := rfl

theorem mstep_eq_cut (ts : List Task) (roots : List String) (u v : String)
    (vs : List String) (rest : List (String × List String)) (grey black : List String)
    (cut : List (String × String)) (h : v ∈ grey) :
    mstep ts ⟨roots, (u, v :: vs) :: rest, grey, black, cut⟩ =
      ⟨roots, (u, vs) :: rest, grey, black, cut ++ [(u, v)]⟩ := by
  simp [mstep, h]

theorem mstep_eq_skip (ts : List Task) (roots : List String) (u v : String)
    (vs : List String) (rest : List (String × List String)) (grey black : List String)
    (cut : List (String × String)) (h : v ∉ grey) (h2 : v ∈ black) :
    mstep ts ⟨roots, (u, v :: vs) :: rest, grey, black, cut⟩ =
      ⟨roots, (u, vs) :: rest, grey, black, cut⟩ := by
  simp [mstep, h, h2]

theorem mstep_eq_push (ts : List Task) (roots : List String) (u v : String)
    (vs : List String) (rest : List (String × List String)) (grey black : List String)
    (cut : List (String × String)) (h : v ∉ grey) (h2 : v ∉ black) :
    mstep ts ⟨roots, (u, v :: vs) :: rest, grey, black, cut⟩ =
      ⟨roots, (v, depsOf ts v) :: (u, vs) :: rest, v :: grey, black, cut⟩ := by
  simp [mstep, h, h2]

theorem mstep_inv {ts : List Task}
    (P2c : ∀ u v, v ∈ depsOf ts u → v ∈ taskIds ts) :
    ∀ s : MState, MInv ts s → MInv ts (mstep ts s) := by
  intro s hinv
  obtain ⟨roots, stack, grey, black, cut⟩ := s
  obtain ⟨hgrey, hgnd, hstk, hblk, hbsub, hbnd, hdisj, hcov, hrsub⟩ := hinv
  simp only at hgrey hgnd hstk hblk hbsub hbnd hdisj hcov hrsub
  cases stack with
  | nil =>
    have hgrey0 : grey = [] := by simpa using hgrey
    subst hgrey0
    cases roots with
    | nil =>
      rw [mstep_eq_done]
      exact ⟨hgrey, hgnd, hstk, hblk, hbsub, hbnd, hdisj, hcov, hrsub⟩
    | cons r rs =>
      by_cases hr : r ∈ ([] : List String) ∨ r ∈ black
      · rw [mstep_eq_rootskip ts r rs [] black cut hr]
        refine ⟨rfl, List.nodup_nil, trivial, hblk, hbsub, hbnd, by simp, ?_, ?_⟩
        · intro w hw
          rcases hcov w hw with hw2 | hw2 | hw2
          · rcases List.mem_cons.mp hw2 with rfl | hw2
            · rcases hr with h | h
              · simp at h
              · exact Or.inr (Or.inr h)
            · exact Or.inl hw2
          · simp at hw2
          · exact Or.inr (Or.inr hw2)
        · intro x hx
          exact hrsub x (List.mem_cons_of_mem r hx)
      · rw [mstep_eq_rootpush ts r rs [] black cut hr]
        push_neg at hr
        have hrid : r ∈ taskIds ts := hrsub r (by simp)
        refine ⟨rfl, by simp, ⟨⟨hrid, [], by simp, by simp⟩, trivial⟩, hblk, hbsub, hbnd,
          ?_, ?_, ?_⟩
        · intro w hw
          simp only [List.mem_singleton] at hw
          subst hw
          exact hr.2
        · intro w hw
          rcases hcov w hw with hw2 | hw2 | hw2
          · rcases List.mem_cons.mp hw2 with rfl | hw2
            · exact Or.inr (Or.inl (by simp))
            · exact Or.inl hw2
          · simp at hw2
          · exact Or.inr (Or.inr hw2)
        · intro x hx
          exact hrsub x (List.mem_cons_of_mem r hx)
  | cons f rest =>
    obtain ⟨u, pend⟩ := f
    cases pend with
    | nil =>
      rw [mstep_eq_pop]
      obtain ⟨⟨huid, pre, hpre, hall⟩, hrest⟩ := hstk
      have hgrey2 : grey = u :: rest.map Prod.fst := by simpa using hgrey
      have hunb : u ∉ black := hdisj u (by rw [hgrey2]; simp)
      refine ⟨?_, ?_, ?_, ?_, ?_, ?_, ?_, ?_, ?_⟩
      · rw [hgrey2]; rfl
      · rw [hgrey2]
        simp only [List.tail_cons]
        rw [hgrey2] at hgnd
        exact (List.nodup_cons.mp hgnd).2
      · exact StackOk_popAbove [] rest hrest
      · intro w hw v hv
        rcases List.mem_append.mp hw with hw2 | hw2
        · rcases hblk w hw2 v hv with h | ⟨l1, l2, hsplit, hv1⟩
          · exact Or.inl h
          · exact Or.inr ⟨l1, l2 ++ [u], by rw [hsplit]; simp, hv1⟩
        · have : w = u := by simpa using hw2
          subst this
          have hv2 : v ∈ pre := by rw [hpre] at hv; simpa using hv
          rcases hall v hv2 with h | h | h
          · exact Or.inl h
          · exact Or.inr ⟨black, [], rfl, h⟩
          · simp at h
      · intro w hw
        rcases List.mem_append.mp hw with hw2 | hw2
        · exact hbsub w hw2
        · have : w = u := by simpa using hw2
          subst this
          exact huid
      · rw [List.nodup_append]
        exact ⟨hbnd, by simp, by simpa using fun h => hunb h⟩
      · intro w hw
        rw [hgrey2] at hgnd
        have hw2 : w ∈ grey := by
          rw [hgrey2]
          rw [hgrey2] at hw
          simp only [List.tail_cons] at hw
          exact List.mem_cons_of_mem u hw
        have hwu : w ≠ u := by
          rw [hgrey2] at hw
          simp only [List.tail_cons] at hw
          intro heq
          subst heq
          exact (List.nodup_cons.mp hgnd).1 hw
        intro hmem
        rcases List.mem_append.mp hmem with h | h
        · exact hdisj w hw2 h
        · exact hwu (by simpa using h)
      · intro w hw
        rcases hcov w hw with h | h | h
        · exact Or.inl h
        · rw [hgrey2] at h
          rcases List.mem_cons.mp h with rfl | h
          · exact Or.inr (Or.inr (by simp))
          · refine Or.inr (Or.inl ?_)
            rw [hgrey2]
            simpa using h
        · exact Or.inr (Or.inr (by simp [h]))
      · exact hrsub
    | cons v vs =>
      obtain ⟨⟨huid, pre, hpre, hall⟩, hrest⟩ := hstk
      by_cases hvg : v ∈ grey
      · rw [mstep_eq_cut ts roots u v vs rest grey black cut hvg]
        refine ⟨by simpa using hgrey, hgnd, ?_, ?_, hbsub, hbnd, hdisj, hcov, hrsub⟩
        · refine ⟨⟨huid, pre ++ [v], by rw [hpre]; simp, ?_⟩, ?_⟩
          · intro w hw
            rcases List.mem_append.mp hw with hw2 | hw2
            · rcases hall w hw2 with h | h | h
              · exact Or.inl (by simp [h])
              · exact Or.inr (Or.inl h)
              · exact Or.inr (Or.inr h)
            · have : w = v := by simpa using hw2
              subst this
              exact Or.inl (by simp)
          · exact StackOk_mono (fun e he => by simp [he]) (fun x hx => hx)
              (fun x hx => hx) rest hrest
        · intro w hw v2 hv2
          rcases hblk w hw v2 hv2 with h | h
          · exact Or.inl (by simp [h])
          · exact Or.inr h
      · by_cases hvb : v ∈ black
        · rw [mstep_eq_skip ts roots u v vs rest grey black cut hvg hvb]
          refine ⟨by simpa using hgrey, hgnd, ?_, hblk, hbsub, hbnd, hdisj, hcov, hrsub⟩
          refine ⟨⟨huid, pre ++ [v], by rw [hpre]; simp, ?_⟩, hrest⟩
          intro w hw
          rcases List.mem_append.mp hw with hw2 | hw2
          · exact hall w hw2
          · have : w = v := by simpa using hw2
            subst this
            exact Or.inr (Or.inl hvb)
        · rw [mstep_eq_push ts roots u v vs rest grey black cut hvg hvb]
          have hvdep : v ∈ depsOf ts u := by rw [hpre]; simp
          have hvid : v ∈ taskIds ts := P2c u v hvdep
          refine ⟨?_, ?_, ?_, hblk, hbsub, hbnd, ?_, ?_, hrsub⟩
          · simp only
            rw [hgrey]
            rfl
          · simp only
            exact List.nodup_cons.mpr ⟨hvg, hgnd⟩
          · refine ⟨⟨hvid, [], by simp, by simp⟩, ?_, ?_⟩
            · refine ⟨huid, pre ++ [v], by rw [hpre]; simp, ?_⟩
              intro w hw
              rcases List.mem_append.mp hw with hw2 | hw2
              · rcases hall w hw2 with h | h | h
                · exact Or.inl h
                · exact Or.inr (Or.inl h)
                · simp at h
              · have : w = v := by simpa using hw2
                subst this
                exact Or.inr (Or.inr (by simp))
            · exact StackOk_mono (fun e he => he) (fun x hx => hx)
                (fun x hx => by simp at hx; simp [hx]) rest hrest
          · intro w hw
            rcases List.mem_cons.mp hw with rfl | hw2
            · exact hvb
            · exact hdisj w hw2
          · intro w hw
            rcases hcov w hw with h | h | h
            · exact Or.inl h
            · exact Or.inr (Or.inl (List.mem_cons_of_mem v h))
            · exact Or.inr (Or.inr h)

theorem containsS_iff (l : List String) (w : String) : l.contains w = true ↔ w ∈ l :=
  List.elem_iff

theorem sum_filter_sub (wt : String → Nat) : ∀ (l : List String), l.Nodup →
    ∀ (x : String), x ∈ l → ∀ (p q : String → Bool), p x = true → q x = false →
    (∀ y ∈ l, y ≠ x → q y = p y) →
    ((l.filter q).map wt).sum + wt x = ((l.filter p).map wt).sum := by
  intro l
  induction l with
  | nil => intro _ x hx; simp at hx
  | cons a l ih =>
    intro hnd x hx p q hp hq hcong
    simp only [List.nodup_cons] at hnd
    rcases List.mem_cons.mp hx with rfl | hx2
    · have hfl : l.filter q = l.filter p := by
        apply List.filter_congr
        intro y hy
        exact hcong y (by simp [hy]) (fun heq => hnd.1 (heq ▸ hy))
      rw [List.filter_cons, List.filter_cons, hp, hq, if_pos rfl,
        if_neg (by simp), hfl]
      simp [Nat.add_comm]
    · have hax : a ≠ x := fun heq => hnd.1 (heq ▸ hx2)
      have hqa : q a = p a := hcong a (by simp) hax
      rw [List.filter_cons, List.filter_cons, hqa]
      have hrec := ih hnd.2 x hx2 p q hp hq (fun y hy hyx => hcong y (by simp [hy]) hyx)
      cases hpa : p a with
      | true =>
        rw [if_pos rfl, if_pos rfl]
        simp only [List.map_cons, List.sum_cons]
        omega
      | false =>
        rw [if_neg (by simp), if_neg (by simp)]
        exact hrec

theorem bool_eq_of_iff {a b : Bool} (h : a = true ↔ b = true) : a = b := by
  cases a <;> cases b <;> simp_all

theorem mstep_measure {ts : List Task} (P1 : IdsNodup ts)
    (P2c : ∀ u v, v ∈ depsOf ts u → v ∈ taskIds ts) :
    ∀ s : MState, MInv ts s → ¬ MTerminal s →
    mMeasure ts (mstep ts s) < mMeasure ts s := by
  intro s hinv hnt
  obtain ⟨roots, stack, grey, black, cut⟩ := s
  obtain ⟨hgrey, hgnd, hstk, hblk, hbsub, hbnd, hdisj, hcov, hrsub⟩ := hinv
  simp only at hgrey hgnd hstk hblk hbsub hbnd hdisj hcov hrsub
  cases stack with
  | nil =>
    have hgrey0 : grey = [] := by simpa using hgrey
    subst hgrey0
    cases roots with
    | nil => exact absurd ⟨rfl, rfl⟩ hnt
    | cons r rs =>
      by_cases hr : r ∈ ([] : List String) ∨ r ∈ black
      · rw [mstep_eq_rootskip ts r rs [] black cut hr]
        simp only [mMeasure, List.length_cons]
        omega
      · rw [mstep_eq_rootpush ts r rs [] black cut hr]
        push_neg at hr
        have hrid : r ∈ taskIds ts := hrsub r (by simp)
        simp only [mMeasure, List.length_cons, List.map_cons, List.sum_cons,
          List.map_nil, List.sum_nil, List.length_nil, List.length_singleton]
        have hW := sum_filter_sub (fun w => (depsOf ts w).length + 3) (taskIds ts) P1 r hrid
          (fun w => !(List.contains ([] : List String) w || black.contains w))
          (fun w => !(List.contains (r :: ([] : List String)) w || black.contains w))
          (by
            have h2 : black.contains r = false :=
              bool_eq_of_iff (by simp [containsS_iff, hr.2])
            simp [h2]
            exact hr.2)
          (by
            have h1 : List.contains (r :: ([] : List String)) r = true := by
              rw [containsS_iff]; simp
            simp [h1])
          (by
            intro y hy hyr
            have h1 : List.contains (r :: ([] : List String)) y =
                List.contains ([] : List String) y :=
              bool_eq_of_iff (by rw [containsS_iff, containsS_iff]; simp [hyr])
            show (!(List.contains (r :: ([] : List String)) y || black.contains y)) =
              (!(List.contains ([] : List String) y || black.contains y))
            rw [h1])
        simp only at hW
        omega
  | cons f rest =>
    obtain ⟨u, pend⟩ := f
    cases pend with
    | nil =>
      rw [mstep_eq_pop]
      have hgrey2 : grey = u :: rest.map Prod.fst := by simpa using hgrey
      have hW : ((taskIds ts).filter
            (fun w => !(grey.tail.contains w || (black ++ [u]).contains w))).map
            (fun w => (depsOf ts w).length + 3) =
          ((taskIds ts).filter
            (fun w => !(grey.contains w || black.contains w))).map
            (fun w => (depsOf ts w).length + 3) := by
        congr 1
        apply List.filter_congr
        intro y _
        by_cases hyu : y = u
        · subst hyu
          have h1 : grey.contains y = true :=
            bool_eq_of_iff (by rw [containsS_iff, hgrey2]; simp)
          have h2 : (black ++ [y]).contains y = true :=
            bool_eq_of_iff (by rw [containsS_iff]; simp)
          show (!(grey.tail.contains y || (black ++ [y]).contains y)) =
            (!(grey.contains y || black.contains y))
          rw [h1, h2]
          simp
        · have h1 : grey.tail.contains y = grey.contains y := by
            apply bool_eq_of_iff
            rw [containsS_iff, containsS_iff, hgrey2]
            simp only [List.tail_cons]
            constructor
            · intro h; exact List.mem_cons_of_mem _ h
            · intro h
              rcases List.mem_cons.mp h with heq | h
              · exact absurd heq hyu
              · exact h
          have h2 : (black ++ [u]).contains y = black.contains y := by
            apply bool_eq_of_iff
            rw [containsS_iff, containsS_iff]
            simp [hyu]
          show (!(grey.tail.contains y || (black ++ [u]).contains y)) =
            (!(grey.contains y || black.contains y))
          rw [h1, h2]
      simp only [mMeasure, List.map_cons, List.sum_cons, List.length_cons, List.length_nil]
      rw [hW]
      omega
    | cons v vs =>
      obtain ⟨⟨huid, pre, hpre, hall⟩, hrest⟩ := hstk
      by_cases hvg : v ∈ grey
      · rw [mstep_eq_cut ts roots u v vs rest grey black cut hvg]
        simp only [mMeasure, List.map_cons, List.sum_cons, List.length_cons]
        omega
      · by_cases hvb : v ∈ black
        · rw [mstep_eq_skip ts roots u v vs rest grey black cut hvg hvb]
          simp only [mMeasure, List.map_cons, List.sum_cons, List.length_cons]
          omega
        · rw [mstep_eq_push ts roots u v vs rest grey black cut hvg hvb]
          have hvdep : v ∈ depsOf ts u := by rw [hpre]; simp
          have hvid : v ∈ taskIds ts := P2c u v hvdep
          simp only [mMeasure, List.map_cons, List.sum_cons, List.length_cons]
          have hW := sum_filter_sub (fun w => (depsOf ts w).length + 3) (taskIds ts) P1 v hvid
            (fun w => !(grey.contains w || black.contains w))
            (fun w => !((v :: grey).contains w || black.contains w))
            (by
              have h1 : grey.contains v = false :=
                bool_eq_of_iff (by simp [containsS_iff, hvg])
              have h2 : black.contains v = false :=
                bool_eq_of_iff (by simp [containsS_iff, hvb])
              simp [h1, h2]
              exact ⟨hvg, hvb⟩)
            (by
              have h1 : (v :: grey).contains v = true :=
                bool_eq_of_iff (by rw [containsS_iff]; simp)
              simp [h1])
            (by
              intro y hy hyv
              have h1 : (v :: grey).contains y = grey.contains y := by
                apply bool_eq_of_iff
                rw [containsS_iff, containsS_iff]
                simp [hyv]
              show (!((v :: grey).contains y || black.contains y)) =
                (!(grey.contains y || black.contains y))
              rw [h1])
          simp only at hW
          omega

theorem mstep_fix (ts : List Task) (s : MState) (h : MTerminal s) : mstep ts s = s := by
  obtain ⟨roots, stack, grey, black, cut⟩ := s
  obtain ⟨h1, h2⟩ := h
  simp only at h1 h2
  subst h1; subst h2
  rfl

theorem miter_fix (ts : List Task) : ∀ (n : Nat) (s : MState), MTerminal s →
    miter ts n s = s := by
  intro n
  induction n with
  | zero => intro s _; rfl
  | succ n ih =>
    intro s h
    rw [miter, mstep_fix ts s h]
    exact ih s h

theorem miter_term {ts : List Task} (P1 : IdsNodup ts)
    (P2c : ∀ u v, v ∈ depsOf ts u → v ∈ taskIds ts) :
    ∀ (n : Nat) (s : MState), MInv ts s → mMeasure ts s < n →
    MTerminal (miter ts n s) ∧ MInv ts (miter ts n s) := by
  intro n
  induction n with
  | zero => intro s _ h; omega
  | succ n ih =>
    intro s hinv hm
    by_cases ht : MTerminal s
    · rw [miter, mstep_fix ts s ht, miter_fix ts n s ht]
      exact ⟨ht, hinv⟩
    · have hdec := mstep_measure P1 P2c s hinv ht
      have hinv2 := mstep_inv P2c s hinv
      rw [miter]
      exact ih (mstep ts s) hinv2 (by omega)

theorem mInit_inv (ts : List Task) : MInv ts (mInit ts) := by
  refine ⟨rfl, List.nodup_nil, trivial, ?_, ?_, List.nodup_nil, ?_, ?_, ?_⟩
  · intro u hu; simp [mInit] at hu
  · intro u hu; simp [mInit] at hu
  · intro u hu; simp [mInit] at hu
  · intro w hw; exact Or.inl hw
  · intro x hx; exact hx

theorem mRun_term {ts : List Task} (P1 : IdsNodup ts) (P2 : DepsClosed ts) :
    MTerminal (mRun ts) ∧ MInv ts (mRun ts) :=
  miter_term P1 (depsOf_closed P2) (mMeasure ts (mInit ts) + 1) (mInit ts)
    (mInit_inv ts) (by omega)

theorem mRun_black {ts : List Task} (P1 : IdsNodup ts) (P2 : DepsClosed ts) :
    (∀ w ∈ taskIds ts, w ∈ (mRun ts).black) ∧ (mRun ts).black.Nodup ∧
    BlackOk ts (mRun ts).cut (mRun ts).black := by
  obtain ⟨⟨hstk, hroots⟩, hinv⟩ := mRun_term P1 P2
  refine ⟨?_, hinv.black_nd, hinv.black_ok⟩
  intro w hw
  rcases hinv.cover w hw with h | h | h
  · rw [hroots] at h; simp at h
  · rw [hinv.grey_eq, hstk] at h; simp at h
  · exact h

theorem idxOf_lt_left (v : String) : ∀ (l1 l2 : List String), v ∈ l1 →
    idxOf v (l1 ++ l2) < l1.length := by
  intro l1
  induction l1 with
  | nil => intro l2 h; simp at h
  | cons x xs ih =>
    intro l2 hv
    by_cases hx : x = v
    · simp [idxOf, hx]
    · rcases List.mem_cons.mp hv with heq | hv2
      · exact absurd heq.symm hx
      · simp only [List.cons_append, idxOf, if_neg hx, List.length_cons]
        rw [List.append_eq]
        have := ih l2 hv2
        omega

theorem idxOf_append_self (u : String) : ∀ (l1 l2 : List String), u ∉ l1 →
    idxOf u (l1 ++ u :: l2) = l1.length := by
  intro l1
  induction l1 with
  | nil => intro l2 _; simp [idxOf]
  | cons x xs ih =>
    intro l2 hu
    have hx : x ≠ u := fun heq => hu (by simp [heq])
    simp only [List.cons_append, idxOf, if_neg hx, List.length_cons]
    rw [List.append_eq, ih l2 (fun h => hu (by simp [h]))]

theorem black_rank {black : List String} (hnd : black.Nodup) {l1 l2 : List String}
    {u v : String} (hsplit : black = l1 ++ u :: l2) (hv : v ∈ l1) :
    idxOf v black < idxOf u black := by
  subst hsplit
  have hu1 : u ∉ l1 := by
    have hd := List.disjoint_of_nodup_append hnd
    intro hmem
    exact hd hmem (by simp)
  rw [idxOf_append_self u l1 l2 hu1]
  exact idxOf_lt_left v l1 (u :: l2) hv

theorem pairContains_iff (l : List (String × String)) (e : String × String) :
    l.contains e = true ↔ e ∈ l := List.elem_iff

theorem dfsCut_rank (ts : List Task) (P1 : IdsNodup ts) (P2 : DepsClosed ts) :
    RankOkT (dfsCut ts).1 := by
  refine ⟨fun w => idxOf w (mRun ts).black, ?_⟩
  intro t' ht' d hd
  simp only [dfsCut, List.mem_map] at ht'
  obtain ⟨t, ht, rfl⟩ := ht'
  simp only [List.mem_filter] at hd
  obtain ⟨hd1, hd2⟩ := hd
  have hid : ({ t with depends_on :=
      t.depends_on.filter (fun v => !((mRun ts).cut.contains (t.id, v))) } : Task).id = t.id := rfl
  rw [hid]
  obtain ⟨hall, hnd, hbok⟩ := mRun_black P1 P2
  have htid : t.id ∈ (mRun ts).black := hall t.id (List.mem_map_of_mem Task.id ht)
  have hdep : d ∈ depsOf ts t.id := by rw [depsOf_eq P1 ht]; exact hd1
  rcases hbok t.id htid d hdep with hcut | ⟨l1, l2, hsplit, hv⟩
  · rw [← pairContains_iff] at hcut
    rw [hcut] at hd2
    simp at hd2
  · exact black_rank hnd hsplit hv

theorem dfsCut_ids (ts : List Task) : taskIds (dfsCut ts).1 = taskIds ts := by
  simp only [dfsCut, taskIds, List.map_map]
  rfl

theorem dfsCut_deps (ts : List Task) : ∀ t' ∈ (dfsCut ts).1, ∃ t ∈ ts,
    t'.id = t.id ∧ t'.depends_on.Sublist t.depends_on := by
  intro t' ht'
  simp only [dfsCut, List.mem_map] at ht'
  obtain ⟨t, ht, rfl⟩ := ht'
  exact ⟨t, ht, rfl, List.filter_sublist t.depends_on⟩

theorem dfsCut_of_cut_nil (ts : List Task) (h : (mRun ts).cut = []) :
    dfsCut ts = (ts, []) := by
  simp only [dfsCut, h, List.map_nil]
  clear h
  refine Prod.ext ?_ rfl
  show List.map _ ts = ts
  induction ts with
  | nil => rfl
  | cons t ts ih =>
    simp only [List.map_cons]
    rw [ih]
    congr 1
    have hf : List.filter
        (fun v => !(List.contains ([] : List (String × String)) (t.id, v)))
        t.depends_on = t.depends_on :=
      List.filter_eq_self.mpr (fun a _ => rfl)
    rw [hf]

theorem chainOk_tail (ts : List Task) : ∀ l : List String, ChainOk ts l →
    ChainOk ts l.tail := by
  intro l h
  match l with
  | [] => trivial
  | [v] => trivial
  | v :: u :: rest => exact h.2

theorem chain_min {ts : List Task} {r : String → Nat}
    (hr : ∀ u v, v ∈ depsOf ts u → r v < r u) :
    ∀ (rest : List String) (top : String), ChainOk ts (top :: rest) →
    ∀ w ∈ top :: rest, r top ≤ r w := by
  intro rest
  induction rest with
  | nil =>
    intro top _ w hw
    simp at hw
    subst hw
    exact Nat.le_refl _
  | cons u rest ih =>
    intro top hch w hw
    have h1 : top ∈ depsOf ts u := hch.1
    have h2 := ih u hch.2
    rcases List.mem_cons.mp hw with heq | hw2
    · subst heq; exact Nat.le_refl _
    · exact Nat.le_trans (Nat.le_of_lt (hr u top h1)) (h2 w hw2)

theorem mstep_chain {ts : List Task} {r : String → Nat}
    (hr : ∀ u v, v ∈ depsOf ts u → r v < r u) :
    ∀ s : MState, MInv ts s → ChainOk ts (s.stack.map Prod.fst) → s.cut = [] →
    (mstep ts s).cut = [] ∧ ChainOk ts ((mstep ts s).stack.map Prod.fst) := by
  intro s hinv hch hcut
  obtain ⟨roots, stack, grey, black, cut⟩ := s
  simp only at hch hcut
  match stack with
  | [] =>
    match roots with
    | [] => exact ⟨hcut, hch⟩
    | rootv :: roots =>
      by_cases h1 : rootv ∈ grey ∨ rootv ∈ black
      · rw [mstep_eq_rootskip ts rootv roots grey black cut h1]
        exact ⟨hcut, trivial⟩
      · rw [mstep_eq_rootpush ts rootv roots grey black cut h1]
        refine ⟨hcut, ?_⟩
        simp only [List.map_cons, List.map_nil]
        trivial
  | (u, deps) :: rest =>
    match deps with
    | [] =>
      rw [mstep_eq_pop ts roots u rest grey black cut]
      refine ⟨hcut, ?_⟩
      have := chainOk_tail ts _ hch
      simpa using this
    | v :: vs =>
      have hso := hinv.stack_ok
      obtain ⟨⟨huid, pre, hpre, hprev⟩, hrest⟩ := hso
      have hvd : v ∈ depsOf ts u := by rw [hpre]; simp
      by_cases h1 : v ∈ grey
      · exfalso
        have hvg2 := h1
        have hgeq := hinv.grey_eq
        simp only [List.map_cons] at hgeq
        rw [hgeq] at hvg2
        have hch2 : ChainOk ts (u :: List.map Prod.fst rest) := by
          simpa using hch
        have hmin := chain_min hr (List.map Prod.fst rest) u hch2 v hvg2
        have := hr u v hvd
        omega
      · by_cases h2 : v ∈ black
        · rw [mstep_eq_skip ts roots u v vs rest grey black cut h1 h2]
          refine ⟨hcut, ?_⟩
          simpa using hch
        · rw [mstep_eq_push ts roots u v vs rest grey black cut h1 h2]
          refine ⟨hcut, ?_⟩
          simp only [List.map_cons] at hch ⊢
          exact ⟨hvd, hch⟩

theorem miter_chain {ts : List Task} {r : String → Nat}
    (hr : ∀ u v, v ∈ depsOf ts u → r v < r u)
    (P2c : ∀ u v, v ∈ depsOf ts u → v ∈ taskIds ts) :
    ∀ (n : Nat) (s : MState), MInv ts s → ChainOk ts (s.stack.map Prod.fst) →
    s.cut = [] → (miter ts n s).cut = [] := by
  intro n
  induction n with
  | zero => intro s _ _ h; exact h
  | succ n ih =>
    intro s hinv hch hcut
    rw [miter]
    obtain ⟨hc2, hch2⟩ := mstep_chain hr s hinv hch hcut
    exact ih (mstep ts s) (mstep_inv P2c s hinv) hch2 hc2

theorem dfsCut_conservative (ts : List Task) (P1 : IdsNodup ts)
    (P2 : DepsClosed ts) (hR : RankOkT ts) : dfsCut ts = (ts, []) := by
  obtain ⟨r, hrk⟩ := hR
  have hr : ∀ u v, v ∈ depsOf ts u → r v < r u := by
    intro u v hv
    obtain ⟨t, ht, hid, hmem⟩ := depsOf_rel hv
    rw [← hid]
    exact hrk t ht v hmem
  apply dfsCut_of_cut_nil
  exact miter_chain hr (depsOf_closed P2) _ (mInit ts) (mInit_inv ts) trivial rfl

theorem exists_min_nat {α : Type} (f : α → Nat) : ∀ l : List α, l ≠ [] →
    ∃ a ∈ l, ∀ b ∈ l, f a ≤ f b := by
  intro l
  induction l with
  | nil => intro h; exact absurd rfl h
  | cons x xs ih =>
    intro _
    match xs, ih with
    | [], _ =>
      refine ⟨x, by simp, ?_⟩
      intro b hb
      simp at hb
      subst hb
      exact Nat.le_refl _
    | y :: ys, ih =>
      obtain ⟨m, hm, hmin⟩ := ih (by simp)
      by_cases hc : f x ≤ f m
      · refine ⟨x, by simp, ?_⟩
        intro b hb
        rcases List.mem_cons.mp hb with rfl | hb2
        · exact Nat.le_refl _
        · exact Nat.le_trans hc (hmin b hb2)
      · refine ⟨m, by simp [hm], ?_⟩
        intro b hb
        rcases List.mem_cons.mp hb with rfl | hb2
        · omega
        · exact hmin b hb2

theorem taskIds_filter (s : String) : ∀ rem : List Task,
    taskIds (rem.filter (fun x => x.id ≠ s)) =
      (taskIds rem).filter (fun y => y ≠ s) := by
  intro rem
  induction rem with
  | nil => rfl
  | cons t ts ih =>
    by_cases h : t.id = s
    · simp only [taskIds, List.filter_cons, List.map_cons] at ih ⊢
      rw [if_neg (by simp [h]), if_neg (by simp [h])]
      exact ih
    · simp only [taskIds, List.filter_cons, List.map_cons] at ih ⊢
      rw [if_pos (by simp [h]), if_pos (by simp [h]), List.map_cons]
      rw [ih]

theorem mem_taskIds {rem : List Task} {d : String} (h : d ∈ taskIds rem) :
    ∃ t ∈ rem, t.id = d := by
  simp only [taskIds, List.mem_map] at h
  exact h

theorem kahnLoop_spec {ts : List Task} {r : String → Nat}
    (hrk : ∀ t ∈ ts, ∀ d ∈ t.depends_on, r d < r t.id) :
    ∀ (fuel : Nat) (rem : List Task) (done : List String),
    (taskIds rem).Nodup →
    (∀ t ∈ rem, t ∈ ts) →
    (∀ t ∈ rem, ∀ d ∈ t.depends_on, d ∈ done ∨ d ∈ taskIds rem) →
    rem.length ≤ fuel →
    (kahnLoop fuel rem done).Perm (taskIds rem) ∧
    (∀ t ∈ rem, ∀ d ∈ t.depends_on, d ∉ done →
      ∃ l1 l2, kahnLoop fuel rem done = l1 ++ t.id :: l2 ∧ d ∈ l1) := by
  intro fuel
  induction fuel with
  | zero =>
    intro rem done hnd hsub hcl hlen
    have hr0 : rem = [] := List.length_eq_zero.mp (Nat.le_zero.mp hlen)
    subst hr0
    exact ⟨List.Perm.refl _, fun t ht => absurd ht (by simp)⟩
  | succ fuel ih =>
    intro rem done hnd hsub hcl hlen
    by_cases hne : rem = []
    · subst hne
      refine ⟨by simp [kahnLoop, taskIds], fun t ht => absurd ht (by simp)⟩
    cases hf : rem.find? (readyB done) with
    | none =>
      exfalso
      obtain ⟨t0, ht0, hmin⟩ := exists_min_nat (fun t => r t.id) rem hne
      have hready : readyB done t0 = true := by
        simp only [readyB, List.all_eq_true]
        intro d hd
        rcases hcl t0 ht0 d hd with hdone | hrem2
        · exact (containsS_iff done d).mpr hdone
        · exfalso
          obtain ⟨t2, ht2, ht2id⟩ := mem_taskIds hrem2
          have h1 := hmin t2 ht2
          have h2 := hrk t0 (hsub t0 ht0) d hd
          rw [ht2id] at h1
          omega
      exact List.find?_eq_none.mp hf t0 ht0 hready
    | some t0 =>
      have ht0mem : t0 ∈ rem := List.mem_of_find?_eq_some hf
      have ht0ready : readyB done t0 = true := List.find?_some hf
      have hstep : kahnLoop (Nat.succ fuel) rem done =
          t0.id :: kahnLoop fuel (rem.filter (fun x => x.id ≠ t0.id))
            (done ++ [t0.id]) := by
        rw [kahnLoop, hf]
      have hids2 : taskIds (rem.filter (fun x => x.id ≠ t0.id)) =
          (taskIds rem).filter (fun y => y ≠ t0.id) := taskIds_filter t0.id rem
      have hnd2 : (taskIds (rem.filter (fun x => x.id ≠ t0.id))).Nodup := by
        rw [hids2]; exact hnd.filter _
      have hsub2 : ∀ t ∈ rem.filter (fun x => x.id ≠ t0.id), t ∈ ts :=
        fun t ht => hsub t (List.mem_of_mem_filter ht)
      have hcl2 : ∀ t ∈ rem.filter (fun x => x.id ≠ t0.id), ∀ d ∈ t.depends_on,
          d ∈ done ++ [t0.id] ∨ d ∈ taskIds (rem.filter (fun x => x.id ≠ t0.id)) := by
        intro t ht d hd
        rcases hcl t (List.mem_of_mem_filter ht) d hd with hdone | hrem2
        · exact Or.inl (List.mem_append_left _ hdone)
        · by_cases hd0 : d = t0.id
          · exact Or.inl (List.mem_append_right _ (by simp [hd0]))
          · refine Or.inr ?_
            rw [hids2]
            exact List.mem_filter.mpr ⟨hrem2, by simpa using hd0⟩
      have hlen2 : (rem.filter (fun x => x.id ≠ t0.id)).length ≤ fuel := by
        have hlt : (rem.filter (fun x => x.id ≠ t0.id)).length < rem.length := by
          apply List.length_filter_lt_length_iff_exists.mpr
          exact ⟨t0, ht0mem, by simp⟩
        omega
      obtain ⟨hperm2, horder2⟩ := ih (rem.filter (fun x => x.id ≠ t0.id))
        (done ++ [t0.id]) hnd2 hsub2 hcl2 hlen2
      constructor
      · rw [hstep]
        have h1 : List.Perm (taskIds rem) (t0.id :: (taskIds rem).erase t0.id) :=
          List.perm_cons_erase (List.mem_map_of_mem Task.id ht0mem)
        have h2 : (taskIds rem).erase t0.id =
            (taskIds rem).filter (fun y => y ≠ t0.id) := by
          rw [hnd.erase_eq_filter t0.id]
          apply List.filter_congr
          intro a _
          by_cases h : a = t0.id <;> simp [h]
        have h3 : taskIds (rem.filter (fun x => x.id ≠ t0.id)) =
            (taskIds rem).erase t0.id := by rw [hids2, h2]
        rw [← h3] at h1
        exact (List.Perm.cons t0.id hperm2).trans h1.symm
      · intro t ht d hd hdone
        by_cases hid : t.id = t0.id
        · exfalso
          have hteq : t = t0 := by
            have hinjall := List.inj_on_of_nodup_map (f := Task.id) hnd
            exact hinjall ht ht0mem hid
          subst hteq
          simp only [readyB, List.all_eq_true] at ht0ready
          exact hdone ((containsS_iff done d).mp (ht0ready d hd))
        · have ht2 : t ∈ rem.filter (fun x => x.id ≠ t0.id) :=
            List.mem_filter.mpr ⟨ht, by simpa using hid⟩
          by_cases hd0 : d = t0.id
          · have htid2 : t.id ∈ taskIds (rem.filter (fun x => x.id ≠ t0.id)) :=
              List.mem_map_of_mem Task.id ht2
            have htid3 : t.id ∈ kahnLoop fuel (rem.filter (fun x => x.id ≠ t0.id))
                (done ++ [t0.id]) := hperm2.mem_iff.mpr htid2
            obtain ⟨a, b, hab⟩ := List.append_of_mem htid3
            refine ⟨t0.id :: a, b, ?_, by simp [hd0]⟩
            rw [hstep, hab]
            rfl
          · have hd2 : d ∉ done ++ [t0.id] := by
              simp only [List.mem_append, List.mem_singleton]
              rintro (h | h)
              · exact hdone h
              · exact hd0 h
            obtain ⟨l1, l2, hsplit, hdl1⟩ := horder2 t ht2 d hd hd2
            refine ⟨t0.id :: l1, l2, ?_, by simp [hdl1]⟩
            rw [hstep, hsplit]
            rfl

theorem kahnTopo_spec {ts : List Task} (P1 : IdsNodup ts) (P2 : DepsClosed ts)
    (hR : RankOkT ts) :
    (kahnTopo ts).Perm (taskIds ts) ∧
    (∀ t ∈ ts, ∀ d ∈ t.depends_on,
      ∃ l1 l2, kahnTopo ts = l1 ++ t.id :: l2 ∧ d ∈ l1) := by
  obtain ⟨r, hrk⟩ := hR
  have h := kahnLoop_spec hrk ts.length ts [] P1 (fun t ht => ht)
    (fun t ht d hd => Or.inr (P2 t ht d hd)) (Nat.le_refl _)
  refine ⟨h.1, ?_⟩
  intro t ht d hd
  exact h.2 t ht d hd (by simp)

theorem rankOk_acyclic {ts : List Task} (h : RankOkT ts) : AcyclicT ts := by
  obtain ⟨r, hr⟩ := h
  have key : ∀ a b, Relation.TransGen (depRel ts) a b → r b < r a := by
    intro a b hab
    induction hab with
    | single h1 =>
      obtain ⟨t, ht, hid, hmem⟩ := h1
      have h3 := hr t ht _ hmem
      rw [hid] at h3
      exact h3
    | tail h1 h2 ih =>
      obtain ⟨t, ht, hid, hmem⟩ := h2
      have h3 := hr t ht _ hmem
      rw [hid] at h3
      omega
  intro u hu
  have := key u u hu
  omega

theorem depsSubset_noSelf {ts ts' : List Task}
    (hd : ∀ t' ∈ ts', ∃ t ∈ ts, t'.id = t.id ∧ ∀ d ∈ t'.depends_on, d ∈ t.depends_on)
    (h : NoSelfDep ts) : NoSelfDep ts' := by
  intro t' ht' hmem
  obtain ⟨t, ht, hid, hsub⟩ := hd t' ht'
  exact h t ht (hid ▸ hsub t'.id hmem)

theorem depsSubset_closed {ts ts' : List Task}
    (hd : ∀ t' ∈ ts', ∃ t ∈ ts, t'.id = t.id ∧ ∀ d ∈ t'.depends_on, d ∈ t.depends_on)
    (hids : taskIds ts' = taskIds ts) (h : DepsClosed ts) : DepsClosed ts' := by
  intro t' ht' d hdm
  obtain ⟨t, ht, hid, hsub⟩ := hd t' ht'
  rw [hids]
  exact h t ht d (hsub d hdm)

theorem dfsCut_deps_subset (ts : List Task) : ∀ t' ∈ (dfsCut ts).1, ∃ t ∈ ts,
    t'.id = t.id ∧ ∀ d ∈ t'.depends_on, d ∈ t.depends_on := by
  intro t' ht'
  obtain ⟨t, ht, hid, hsl⟩ := dfsCut_deps ts t' ht'
  exact ⟨t, ht, hid, fun d hd => hsl.subset hd⟩

theorem dfsCut_depsNodup (ts : List Task) (h : DepsNodup ts) :
    DepsNodup (dfsCut ts).1 := by
  intro t' ht'
  simp only [dfsCut, List.mem_map] at ht'
  obtain ⟨t, ht, rfl⟩ := ht'
  exact (h t ht).filter _

theorem dfsCut_noissue (ts : List Task) (h : (dfsCut ts).2 = []) :
    (dfsCut ts).1 = ts := by
  have h2 : List.map (fun e => "Cut cyclic dependency edge from " ++ e.1 ++
      " to " ++ e.2) (mRun ts).cut = [] := h
  have hcut : (mRun ts).cut = [] := List.map_eq_nil.mp h2
  rw [dfsCut_of_cut_nil ts hcut]

theorem validateRepair_eq (wf : Workflow) :
    validateRepair wf =
      if (pass5 wf).1.isEmpty then Except.error "workflow has no tasks"
      else Except.ok ({ wf with tasks := (pass5 wf).1 }, repairIssues wf,
        kahnTopo (pass5 wf).1) := rfl

theorem validateRepair_ok {wf wf' : Workflow} {issues topo : List String}
    (h : validateRepair wf = Except.ok (wf', issues, topo)) :
    wf' = { wf with tasks := (pass5 wf).1 } ∧ issues = repairIssues wf ∧
    topo = kahnTopo (pass5 wf).1 ∧ (pass5 wf).1 ≠ [] := by
  rw [validateRepair_eq] at h
  split at h
  · exact absurd h (by simp)
  · rename_i hne
    simp only [Except.ok.injEq, Prod.mk.injEq] at h
    obtain ⟨h1, h2, h3⟩ := h
    refine ⟨h1.symm, h2.symm, h3.symm, ?_⟩
    intro hnil
    rw [hnil] at hne
    simp at hne

theorem pass5_inv (wf : Workflow) :
    IdsNodup (pass5 wf).1 ∧ NoSelfDep (pass5 wf).1 ∧ DepsClosed (pass5 wf).1 ∧
    DepsNodup (pass5 wf).1 ∧ RankOkT (pass5 wf).1 := by
  have h1nd : IdsNodup (pass1 wf).1 := (dedupTasks_nodup [] wf.tasks).1
  have h2ids : taskIds (pass2 wf).1 = taskIds (pass1 wf).1 :=
    stripSelf_ids (pass1 wf).1
  have h2nd : IdsNodup (pass2 wf).1 := by rw [IdsNodup, h2ids]; exact h1nd
  have h2ns : NoSelfDep (pass2 wf).1 := stripSelf_noSelf (pass1 wf).1
  have h3ids : taskIds (pass3 wf).1 = taskIds (pass2 wf).1 :=
    stripMissing_ids _ (pass2 wf).1
  have h3nd : IdsNodup (pass3 wf).1 := by rw [IdsNodup, h3ids]; exact h2nd
  have h3ns : NoSelfDep (pass3 wf).1 :=
    depsSubset_noSelf (stripMissing_deps _ (pass2 wf).1) h2ns
  have h3cl : DepsClosed (pass3 wf).1 := by
    intro t ht d hd
    rw [h3ids]
    exact stripMissing_closed _ (pass2 wf).1 t ht d hd
  have h4ids : taskIds (pass4 wf).1 = taskIds (pass3 wf).1 :=
    stripDupDeps_ids (pass3 wf).1
  have h4nd : IdsNodup (pass4 wf).1 := by rw [IdsNodup, h4ids]; exact h3nd
  have h4ns : NoSelfDep (pass4 wf).1 :=
    depsSubset_noSelf (stripDupDeps_deps (pass3 wf).1) h3ns
  have h4cl : DepsClosed (pass4 wf).1 :=
    depsSubset_closed (stripDupDeps_deps (pass3 wf).1) h4ids h3cl
  have h4dn : DepsNodup (pass4 wf).1 := stripDupDeps_nodup (pass3 wf).1
  have h5ids : taskIds (pass5 wf).1 = taskIds (pass4 wf).1 :=
    dfsCut_ids (pass4 wf).1
  have h5nd : IdsNodup (pass5 wf).1 := by rw [IdsNodup, h5ids]; exact h4nd
  have h5rank : RankOkT (pass5 wf).1 := dfsCut_rank (pass4 wf).1 h4nd h4cl
  have h5ns : NoSelfDep (pass5 wf).1 :=
    depsSubset_noSelf (dfsCut_deps_subset (pass4 wf).1) h4ns
  have h5cl : DepsClosed (pass5 wf).1 :=
    depsSubset_closed (dfsCut_deps_subset (pass4 wf).1) h5ids h4cl
  have h5dn : DepsNodup (pass5 wf).1 := dfsCut_depsNodup (pass4 wf).1 h4dn
  exact ⟨h5nd, h5ns, h5cl, h5dn, h5rank⟩

theorem repairIssues_nil {wf : Workflow} (h : repairIssues wf = []) :
    (pass5 wf).1 = wf.tasks := by
  simp only [repairIssues, List.append_eq_nil] at h
  obtain ⟨⟨⟨⟨h1, h2⟩, h3⟩, h4⟩, h5⟩ := h
  have e1 : (pass1 wf).1 = wf.tasks := dedupTasks_noissue [] wf.tasks h1
  have e2 : (pass2 wf).1 = (pass1 wf).1 := stripSelf_noissue (pass1 wf).1 h2
  have e3 : (pass3 wf).1 = (pass2 wf).1 := stripMissing_noissue _ (pass2 wf).1 h3
  have e4 : (pass4 wf).1 = (pass3 wf).1 := stripDupDeps_noissue (pass3 wf).1 h4
  have e5 : (pass5 wf).1 = (pass4 wf).1 := dfsCut_noissue (pass4 wf).1 h5
  rw [e5, e4, e3, e2, e1]

theorem validateRepair_valid (wf' : Workflow) (P1 : IdsNodup wf'.tasks)
    (Pns : NoSelfDep wf'.tasks) (Pc : DepsClosed wf'.tasks)
    (Pdn : DepsNodup wf'.tasks) (PR : RankOkT wf'.tasks)
    (hne : wf'.tasks ≠ []) :
    validateRepair wf' = Except.ok (wf', [], kahnTopo wf'.tasks) := by
  have e1 : pass1 wf' = (wf'.tasks, []) :=
    dedupTasks_id [] wf'.tasks P1 (by simp)
  have e2 : pass2 wf' = (wf'.tasks, []) := by
    show stripSelf (pass1 wf').1 = _
    rw [e1]
    exact stripSelf_id wf'.tasks Pns
  have e3 : pass3 wf' = (wf'.tasks, []) := by
    show stripMissing (taskIds (pass2 wf').1) (pass2 wf').1 = _
    rw [e2]
    exact stripMissing_id _ wf'.tasks Pc
  have e4 : pass4 wf' = (wf'.tasks, []) := by
    show stripDupDeps (pass3 wf').1 = _
    rw [e3]
    exact stripDupDeps_id wf'.tasks Pdn
  have e5 : pass5 wf' = (wf'.tasks, []) := by
    show dfsCut (pass4 wf').1 = _
    rw [e4]
    exact dfsCut_conservative wf'.tasks P1 Pc PR
  rw [validateRepair_eq, e5]
  have hemp : (wf'.tasks, ([] : List String)).1.isEmpty = false := by
    cases hts : wf'.tasks with
    | nil => exact absurd hts hne
    | cons a l => rfl
  rw [if_neg (by simp [hemp])]
  have hiss : repairIssues wf' = [] := by
    simp [repairIssues, e1, e2, e3, e4, e5]
  rw [hiss]

/-- C1: every workflow the Graph Validator and Repairer returns, however
adversarial its input (self-dependencies, dangling dependencies, duplicate
ids, cycles), satisfies the six data-model invariants: dependencies
reference existing ids, no self-dependency, no duplicate edges, acyclic,
unique ids, and at least one task; moreover no repair goes unreported: if
the returned issues list is empty the tasks are unchanged. -/
theorem c1_validator_invariants (wf wf' : Workflow) (issues topo : List String)
    (h : validateRepair wf = Except.ok (wf', issues, topo)) :
    DepsClosed wf'.tasks ∧ NoSelfDep wf'.tasks ∧ DepsNodup wf'.tasks ∧
    AcyclicT wf'.tasks ∧ IdsNodup wf'.tasks ∧ wf'.tasks ≠ [] ∧
    (issues = [] → wf'.tasks = wf.tasks) := by
  obtain ⟨hwf, hiss, htopo, hne⟩ := validateRepair_ok h
  obtain ⟨i5, i2, i1, i3, iR⟩ := pass5_inv wf
  have hts : wf'.tasks = (pass5 wf).1 := by rw [hwf]
  rw [hts]
  refine ⟨i1, i2, i3, rankOk_acyclic iR, i5, hne, ?_⟩
  intro hn
  rw [hiss] at hn
  exact repairIssues_nil hn

theorem c1_witness :
    validateRepair wfC1 = Except.ok (wfC1out, issC1, topoC1) ∧
    (DepsClosed wfC1out.tasks ∧ NoSelfDep wfC1out.tasks ∧
     DepsNodup wfC1out.tasks ∧ AcyclicT wfC1out.tasks ∧
     IdsNodup wfC1out.tasks ∧ wfC1out.tasks ≠ [] ∧
     (issC1 = [] → wfC1out.tasks = wfC1.tasks)) :=
  ⟨rfl, c1_validator_invariants wfC1 wfC1out issC1 topoC1 rfl⟩

/-- C3: the Graph Validator and Repairer is idempotent: a second run on the
workflow it returned yields that same workflow, the same topo order, and an
empty issues list. -/
theorem c3_validator_idempotent (wf wf' : Workflow) (issues topo : List String)
    (h : validateRepair wf = Except.ok (wf', issues, topo)) :
    validateRepair wf' = Except.ok (wf', [], topo) := by
  obtain ⟨hwf, hiss, htopo, hne⟩ := validateRepair_ok h
  obtain ⟨i5, i2, i1, i3, iR⟩ := pass5_inv wf
  have hts : wf'.tasks = (pass5 wf).1 := by rw [hwf]
  have hr := validateRepair_valid wf' (by rw [hts]; exact i5) (by rw [hts]; exact i2)
    (by rw [hts]; exact i1) (by rw [hts]; exact i3) (by rw [hts]; exact iR)
    (by rw [hts]; exact hne)
  rw [hr, htopo, hts]

theorem c3_witness :
    validateRepair wfC1 = Except.ok (wfC1out, issC1, topoC1) ∧
    validateRepair wfC1out = Except.ok (wfC1out, [], topoC1) :=
  ⟨rfl, c3_validator_idempotent wfC1 wfC1out issC1 topoC1 rfl⟩

/-- C4: the topo order returned with a repaired workflow is a valid
topological linearization: it is a permutation of the repaired workflow's
task ids, and every dependency of a task appears strictly before that task
in it. -/
theorem c4_topo_order (wf wf' : Workflow) (issues topo : List String)
    (h : validateRepair wf = Except.ok (wf', issues, topo)) :
    topo.Perm (taskIds wf'.tasks) ∧
    ∀ t ∈ wf'.tasks, ∀ d ∈ t.depends_on,
      ∃ l1 l2, topo = l1 ++ t.id :: l2 ∧ d ∈ l1 := by
  obtain ⟨hwf, hiss, htopo, hne⟩ := validateRepair_ok h
  obtain ⟨i5, i2, i1, i3, iR⟩ := pass5_inv wf
  have hts : wf'.tasks = (pass5 wf).1 := by rw [hwf]
  rw [hts, htopo]
  exact kahnTopo_spec i5 i1 iR

theorem c4_witness :
    validateRepair wfC1 = Except.ok (wfC1out, issC1, topoC1) ∧
    (topoC1.Perm (taskIds wfC1out.tasks) ∧
     ∀ t ∈ wfC1out.tasks, ∀ d ∈ t.depends_on,
       ∃ l1 l2, topoC1 = l1 ++ t.id :: l2 ∧ d ∈ l1) :=
  ⟨rfl, c4_topo_order wfC1 wfC1out issC1 topoC1 rfl⟩

/-- C2: for every workflow the Ownership Planner accepts, the task_id
values of the returned assignments are exactly the workflow's task ids,
each occurring exactly once: no task is omitted and none is assigned
twice. -/
theorem c2_planner_coverage (wf : Workflow) (plan : AgenticPlan)
    (h : planOwnership wf = Except.ok plan) :
    List.map AssignedTask.task_id plan.assignments = taskIds wf.tasks ∧
    (List.map AssignedTask.task_id plan.assignments).Nodup ∧
    ∀ i ∈ taskIds wf.tasks,
      (List.map AssignedTask.task_id plan.assignments).count i = 1 := by
  rw [planOwnership] at h
  split at h
  · rename_i hc
    simp only [Except.ok.injEq] at h
    have hassign : plan.assignments = wf.tasks.map (mkAssigned wf) := by
      rw [← h]
    have hmap : List.map AssignedTask.task_id plan.assignments = taskIds wf.tasks := by
      rw [hassign, List.map_map]
      rfl
    simp only [checkInvariantsB, Bool.and_eq_true, decide_eq_true_eq] at hc
    have hnd : (taskIds wf.tasks).Nodup := hc.1.1.1.1.2
    refine ⟨hmap, by rw [hmap]; exact hnd, ?_⟩
    intro i hi
    rw [hmap]
    exact List.count_eq_one_of_mem hnd hi
  · exact absurd h (by simp)

theorem c2_witness :
    planOwnership wfC1out = Except.ok planC2 ∧
    (List.map AssignedTask.task_id planC2.assignments = taskIds wfC1out.tasks ∧
     (List.map AssignedTask.task_id planC2.assignments).Nodup ∧
     ∀ i ∈ taskIds wfC1out.tasks,
       (List.map AssignedTask.task_id planC2.assignments).count i = 1) :=
  ⟨rfl, c2_planner_coverage wfC1out planC2 rfl⟩

/-- C5: the decompose input gate: when the input text trims to empty the
request is rejected before any work, nothing is sent and nothing is stored
(the browser state is unchanged and no result is produced); when the
trimmed text is nonempty, the body sent carries exactly the trimmed
text. -/
theorem c5_decompose_gate :
    ∀ (st : BrowserState) (input title gran : List Char)
      (resp : DecomposeBody → Option JsonVal),
    (jsTrim input = [] →
      decomposeRequest input title gran = none ∧
      decomposeRun st input title gran resp = (st, none)) ∧
    (jsTrim input ≠ [] →
      ∃ body, decomposeRequest input title gran = some body ∧
        body.text = jsTrim input) := by
  intro st input title gran resp
  constructor
  · intro h
    exact ⟨decomposeRequest_reject input title gran h,
      decomposeRun_reject st input title gran resp h⟩
  · intro h
    refine ⟨_, decomposeRequest_accept input title gran h, rfl⟩

/-- C6 (amended): the planning request body is exactly the singleton object
binding "workflow" to the workflow field of the most recent decomposition
response; that response, however, is read from shared browser storage via
getLastWorkflowResponse, not passed by value. -/
theorem c6_request_from_storage (st : BrowserState) (resp w : JsonVal)
    (h1 : getLastWorkflowResponse st = some resp) (h2 : jsTruthy resp = true)
    (h3 : getField resp (toCl "workflow") = some w) (h4 : jsTruthy w = true) :
    generateAgenticRequest st = some (JsonVal.jobj [(toCl "workflow", w)]) :=
  agentic_request_eq st resp w h1 h2 h3 h4

theorem c6_witness :
    (getLastWorkflowResponse stC6 = some respC6 ∧ jsTruthy respC6 = true ∧
     getField respC6 (toCl "workflow") = some (JsonVal.jobj []) ∧
     jsTruthy (JsonVal.jobj []) = true) ∧
    generateAgenticRequest stC6 =
      some (JsonVal.jobj [(toCl "workflow", JsonVal.jobj [])]) :=
  ⟨⟨rfl, rfl, rfl, rfl⟩,
   c6_request_from_storage stC6 respC6 (JsonVal.jobj []) rfl rfl rfl rfl⟩

theorem c6_counterexample :
    generateAgenticRequest stC6e = none ∧
    generateAgenticRequest stC6 =
      some (JsonVal.jobj [(toCl "workflow", JsonVal.jobj [])]) ∧
    generateAgenticRequest stC6e ≠ generateAgenticRequest stC6 := by
  have h1 : generateAgenticRequest stC6e = none := rfl
  have h2 : generateAgenticRequest stC6 =
      some (JsonVal.jobj [(toCl "workflow", JsonVal.jobj [])]) := rfl
  refine ⟨h1, h2, ?_⟩
  rw [h1, h2]
  intro h
  exact Option.noConfusion h

/-- C7: persistence of the last decomposition result is done by the
surrounding pages through browser storage: the save stores the serialized
response under the key lastWorkflowResponse in localStorage, falls back to
sessionStorage when localStorage fails, and the planning page's read of the
same key recovers the saved response. -/
theorem c7_persistence :
    ∀ (st : BrowserState) (d : JsonVal),
    storageKey = toCl "lastWorkflowResponse" ∧
    (st.localS.fails = false →
      lookupS (saveLastWorkflowResponse st d).localS.data storageKey =
        some (stringifyJson d)) ∧
    (st.localS.fails = true → st.sessionS.fails = false →
      lookupS (saveLastWorkflowResponse st d).sessionS.data storageKey =
        some (stringifyJson d)) ∧
    (st.localS.fails = false ∨ st.sessionS.fails = false →
      getLastWorkflowResponse (saveLastWorkflowResponse st d) = some d) := by
  intro st d
  refine ⟨rfl, ?_, ?_, save_roundtrip st d⟩
  · intro h
    rw [(save_local st d h).1]
    exact lookupS_insertS_self st.localS.data storageKey (stringifyJson d)
  · intro h1 h2
    rw [(save_session st d h1 h2).1]
    exact lookupS_insertS_self st.sessionS.data storageKey (stringifyJson d)

/-- C8: escapeHtml is total on null, undefined and strings: null and
undefined yield the empty string, and for every input the output contains
no raw angle bracket, double quote or single quote, and every ampersand in
the output starts one of the five emitted entities. -/
theorem c8_escapeHtml_safe :
    ∀ v : EscIn,
    memC '<' (escapeHtml v) = false ∧ memC '>' (escapeHtml v) = false ∧
    memC '"' (escapeHtml v) = false ∧ memC '\'' (escapeHtml v) = false ∧
    ampOk (escapeHtml v) = true ∧
    escapeHtml EscIn.enull = [] ∧ escapeHtml EscIn.eundef = [] := by
  intro v
  obtain ⟨h1, h2, h3, h4, h5⟩ := escapeHtmlL_safe (escInput v)
  exact ⟨h1, h2, h3, h4, h5, rfl, rfl⟩

/-- C9: getLastWorkflowResponse is total: it returns none when both storage
reads fail, when no nonempty value is stored under the key, or when the
stored string does not parse as JSON; when a nonempty string is read it
returns exactly the parse result, so the caller always receives none or a
parsed value. -/
theorem c9_getLast_total :
    ∀ st : BrowserState,
    (st.localS.fails = true → st.sessionS.fails = true →
      getLastWorkflowResponse st = none) ∧
    ((lookupS st.localS.data storageKey = none ∨
        lookupS st.localS.data storageKey = some []) →
     (lookupS st.sessionS.data storageKey = none ∨
        lookupS st.sessionS.data storageKey = some []) →
      getLastWorkflowResponse st = none) ∧
    (∀ s, rawRead st = some s → s ≠ [] →
      getLastWorkflowResponse st = parseJson s) ∧
    (∀ s, rawRead st = some s → s ≠ [] → parseJson s = none →
      getLastWorkflowResponse st = none) ∧
    (getLastWorkflowResponse st = none ∨
      ∃ v, getLastWorkflowResponse st = some v) := by
  intro st
  have hparse : ∀ s, rawRead st = some s → s ≠ [] →
      getLastWorkflowResponse st = parseJson s := by
    intro s hs hne
    rw [getLastWorkflowResponse, hs]
    simp [hne]
  refine ⟨fun h1 h2 => getLast_bothFail st h1 h2,
    fun h1 h2 => getLast_noValue st h1 h2, hparse, ?_, ?_⟩
  · intro s hs hne hp
    rw [hparse s hs hne, hp]
  · cases h : getLastWorkflowResponse st with
    | none => exact Or.inl rfl
    | some v => exact Or.inr ⟨v, rfl⟩

/-- C10: storage round trip: saving a value and then reading it back yields
a value structurally equal to the saved one whenever at least one of the
two storages is working. -/
theorem c10_storage_roundtrip (st : BrowserState) (d : JsonVal)
    (h : st.localS.fails = false ∨ st.sessionS.fails = false) :
    getLastWorkflowResponse (saveLastWorkflowResponse st d) = some d :=
  save_roundtrip st d h

theorem c10_witness :
    (stC10.localS.fails = false ∨ stC10.sessionS.fails = false) ∧
    getLastWorkflowResponse (saveLastWorkflowResponse stC10 dC10) = some dC10 :=
  ⟨Or.inl rfl, c10_storage_roundtrip stC10 dC10 (Or.inl rfl)⟩

end Wf
